import Mathlib

/-!
Verification of the content-analysis and template-feedback core of the
agno-blog repository.

The development shallowly embeds the modules the claims are about:

* src/tools/content_processor.py  (class ContentProcessingTools)
* src/tools/template_manager.py   (class TemplateManagementTools)
* src/agents/template_manager.py  (class TemplateManagerAgent, tool closures)

Strings are modelled by Lean strings (lists of characters).  The Python
regular expressions used by the source are all of a very simple shape
(character classes, greedy runs, fixed literals); each re.sub / re.split /
re.findall call is translated into an explicit left-to-right scanner with
the same leftmost, non-overlapping, greedy semantics.  The scanners are
written as structurally recursive state machines so that every definition
evaluates inside the kernel.  Python dictionaries holding template records
are modelled by a structure with the record's fixed field set; the on-disk
template store (one JSON file per template id) is modelled by an
association list from ids to records, and every operation that writes
through TemplateManagementTools.save_template is modelled in state-passing
style, returning the new store.  datetime.utcnow() values are taken as an
explicit argument of the operations that stamp them.  Floats (feedback
scores) are modelled by rationals.  Character classes \w and [A-Z] are
modelled at ASCII precision (the inputs appearing in the claims and in the
repository's templates are ASCII).
-/

/-! ## Basic character classes (Python regex classes used by the source) -/

/-- Left brace character, written by code to avoid brace-escape ambiguity. -/
def lbrace : Char := Char.ofNat 123

/-- Right brace character. -/
def rbrace : Char := Char.ofNat 125

/-- Newline character. -/
def nl : Char := Char.ofNat 10

/-- ASCII apostrophe. -/
def apos : Char := Char.ofNat 39

/-- ASCII double quote. -/
def dquote : Char := Char.ofNat 34

/-- Python regex \s : whitespace (space, tab, newline, carriage return,
form feed, vertical tab). -/
def isPySpace (c : Char) : Bool :=
  c = ' ' || c = Char.ofNat 9 || c = nl || c = Char.ofNat 13 ||
  c = Char.ofNat 12 || c = Char.ofNat 11

/-- Python regex \w at ASCII precision: letters, digits, underscore. -/
def isWordChar (c : Char) : Bool :=
  ('a' ≤ c && c ≤ 'z') || ('A' ≤ c && c ≤ 'Z') || ('0' ≤ c && c ≤ '9') || c = '_'

/-- The class [.!?] of sentence-ending punctuation. -/
def isSentPunct (c : Char) : Bool :=
  c = '.' || c = '!' || c = '?'

/-- The class [,.!?;:] used by the space-before-punctuation fix. -/
def isPunctAfterSpace (c : Char) : Bool :=
  c = ',' || c = '.' || c = '!' || c = '?' || c = ';' || c = ':'

/-- The regex class [A-Z]. -/
def isUpperAscii (c : Char) : Bool :=
  'A' ≤ c && c ≤ 'Z'

/-! ## Generic string operations shared by the embedded code -/

/-- Python str.lower at ASCII precision on one character. -/
def lowerChar (c : Char) : Char :=
  if isUpperAscii c then Char.ofNat (c.toNat + 32) else c

/-- Python str.lower at ASCII precision. -/
def pyLower (s : String) : String :=
  ⟨s.data.map lowerChar⟩

/-- Python str.strip : drop whitespace from both ends (character level). -/
def pyStripChars (l : List Char) : List Char :=
  ((l.dropWhile isPySpace).reverse.dropWhile isPySpace).reverse

/-- Python str.strip on strings. -/
def pyStrip (s : String) : String :=
  ⟨pyStripChars s.data⟩

/-- Python substring membership, pat in s (character level): some
contiguous run of s equals pat. -/
def containsSub (s pat : List Char) : Bool :=
  match s with
  | [] => pat.isEmpty
  | _ :: t => pat.isPrefixOf s || containsSub t pat

/-- Python substring membership on strings. -/
def strContains (s pat : String) : Bool :=
  containsSub s.data pat.data

/-- Scanner for Python str.replace with a non-empty pattern p0 :: prest:
replace leftmost non-overlapping occurrences, left to right.  When the
pattern matches, the scanner emits the replacement and walks over the rest
of the matched region with the skip counter. -/
def replaceAllGo (p0 : Char) (prest rep : List Char) : Nat → List Char → List Char
  | _, [] => []
  | k + 1, _ :: t => replaceAllGo p0 prest rep k t
  | 0, c :: t =>
    if (p0 :: prest).isPrefixOf (c :: t) then
      rep ++ replaceAllGo p0 prest rep prest.length t
    else
      c :: replaceAllGo p0 prest rep 0 t

/-- Python str.replace (character level).  An empty pattern never occurs in
the source; it is mapped to the identity. -/
def replaceAll (s pat rep : List Char) : List Char :=
  match pat with
  | [] => s
  | p0 :: prest => replaceAllGo p0 prest rep 0 s

/-- Python str.replace on strings. -/
def pyReplace (s pat rep : String) : String :=
  ⟨replaceAll s.data pat.data rep.data⟩

/-- Python str.split on a single-character separator: cut at every
occurrence, keeping empty pieces. -/
def splitOnChar (sep : Char) : List Char → List (List Char)
  | [] => [[]]
  | c :: t =>
    if c = sep then
      [] :: splitOnChar sep t
    else
      match splitOnChar sep t with
      | [] => [[c]]
      | p :: ps => (c :: p) :: ps

/-- Python str.split on a two-character separator (the source only splits
on the separator of two newlines): cut at leftmost non-overlapping
occurrences, keeping empty pieces. -/
def splitOnPair (a b : Char) : List Char → List (List Char)
  | [] => [[]]
  | [c] => [[c]]
  | c :: d :: t =>
    if c = a ∧ d = b then
      [] :: splitOnPair a b t
    else
      match splitOnPair a b (d :: t) with
      | [] => [[c]]
      | p :: ps => (c :: p) :: ps

/-- Scanner for re.split over a character class (used for the regex
[.!?]+): pieces between maximal runs of class characters, keeping the
empty pieces Python's re.split produces at the ends.  The flag records
whether the previous character belonged to the class. -/
def splitClassRunsGo (p : Char → Bool) : Bool → List Char → List (List Char)
  | _, [] => [[]]
  | inRun, c :: t =>
    if p c then
      if inRun then
        splitClassRunsGo p true t
      else
        [] :: splitClassRunsGo p true t
    else
      match splitClassRunsGo p false t with
      | [] => [[c]]
      | q :: qs => (c :: q) :: qs

/-- re.split over a character class. -/
def splitClassRuns (p : Char → Bool) (l : List Char) : List (List Char) :=
  splitClassRunsGo p false l

/-- Count of maximal runs of word characters: the length of the list
returned by re.findall for the word-run pattern.  The flag records whether
the previous character was a word character. -/
def countWordRunsGo : Bool → List Char → Nat
  | _, [] => 0
  | inWord, c :: t =>
    if isWordChar c then
      if inWord then countWordRunsGo true t else countWordRunsGo true t + 1
    else
      countWordRunsGo false t

/-- len(re.findall) for the word-run pattern on a list of characters. -/
def countWordRuns (l : List Char) : Nat :=
  countWordRunsGo false l

/-! ## ContentProcessingTools.clean_content (content_processor.py lines 31-71)

The method applies, in order:
1. re.sub of one-or-more whitespace to a single space;
2. re.sub of newline-whitespace-newline to two newlines (identity after 1);
3. six str.replace calls normalizing curly quotes and dashes;
4. re.sub deleting characters outside the allowed class;
5. re.sub collapsing a run (length at least 2) of [.!?] to its last
   character (the regex group captures the last repetition);
6. re.sub deleting whitespace before [,.!?;:];
7. re.sub inserting exactly one space between [.!?] and [A-Z], the match
   consuming the capital;
8. str.strip.
-/

/-- Stage 1 scanner: collapse every maximal whitespace run to one space.
The flag records whether the previous character was whitespace. -/
def collapseWsGo : Bool → List Char → List Char
  | _, [] => []
  | prevWs, c :: t =>
    if isPySpace c then
      if prevWs then collapseWsGo true t else ' ' :: collapseWsGo true t
    else
      c :: collapseWsGo false t

/-- Stage 1: re.sub of one-or-more whitespace to a single space. -/
def collapseWs (l : List Char) : List Char :=
  collapseWsGo false l

/-- Stage 2 helper: effect of the regex on one maximal whitespace run.
The greedy pattern of newline, any whitespace, newline matches from the
first to the last newline of the run and is replaced by two newlines. -/
def fixWsRun (run : List Char) : List Char :=
  if 2 ≤ run.count nl then
    run.takeWhile (fun c => c ≠ nl) ++ [nl, nl] ++
      (run.reverse.takeWhile (fun c => c ≠ nl)).reverse
  else run

/-- Stage 2 scanner: collect each maximal whitespace run (reversed in the
accumulator) and rewrite it with fixWsRun.  After stage 1 the text has no
newline, so the stage is the identity there; it is kept to mirror the
source line for line. -/
def nlNormalizeGo (pending : List Char) : List Char → List Char
  | [] => fixWsRun pending.reverse
  | c :: t =>
    if isPySpace c then
      nlNormalizeGo (c :: pending) t
    else
      fixWsRun pending.reverse ++ c :: nlNormalizeGo [] t

/-- Stage 2: re.sub of newline-whitespace-newline to two newlines. -/
def nlNormalize (l : List Char) : List Char :=
  nlNormalizeGo [] l

/-- Stage 3: the six str.replace calls.  Each source pattern is a single
character and no replacement text contains a later pattern, so the
sequential replaces equal one character map. -/
def replaceUnicodePunct (l : List Char) : List Char :=
  l.flatMap (fun c =>
    if c = Char.ofNat 0x2019 then [apos]
    else if c = Char.ofNat 0x2018 then [apos]
    else if c = Char.ofNat 0x201c then [dquote]
    else if c = Char.ofNat 0x201d then [dquote]
    else if c = Char.ofNat 0x2013 then ['-']
    else if c = Char.ofNat 0x2014 then ['-', '-']
    else [c])

/-- The character class kept by stage 4 (the complement of the deleted
class): word characters, whitespace, and the listed punctuation. -/
def isAllowedChar (c : Char) : Bool :=
  isWordChar c || isPySpace c || c = '.' || c = ',' || c = '!' || c = '?' ||
  c = ';' || c = ':' || c = '(' || c = ')' || c = '-' || c = dquote ||
  c = apos || c = '/' || c = nl

/-- Stage 4: delete every disallowed character. -/
def filterAllowed (l : List Char) : List Char :=
  l.filter isAllowedChar

/-- Stage 5: collapse each maximal run of [.!?] of length at least two to
the last character of the run (the regex group holds its last repetition).
A class character directly followed by another class character is dropped;
the last character of each run survives. -/
def collapsePunctRuns : List Char → List Char
  | [] => []
  | [c] => [c]
  | c :: d :: t =>
    if isSentPunct c && isSentPunct d then
      collapsePunctRuns (d :: t)
    else
      c :: collapsePunctRuns (d :: t)

/-- Stage 6 scanner: a maximal whitespace run (collected reversed in the
accumulator) directly followed by one of [,.!?;:] is deleted, keeping the
punctuation character; a run not followed by such a character is copied. -/
def rmSpaceBeforePunctGo (pending : List Char) : List Char → List Char
  | [] => pending.reverse
  | c :: t =>
    if isPySpace c then
      rmSpaceBeforePunctGo (c :: pending) t
    else if isPunctAfterSpace c then
      c :: rmSpaceBeforePunctGo [] t
    else
      pending.reverse ++ c :: rmSpaceBeforePunctGo [] t

/-- Stage 6: re.sub deleting whitespace before [,.!?;:]. -/
def rmSpaceBeforePunct (l : List Char) : List Char :=
  rmSpaceBeforePunctGo [] l

/-- Stage 7 state: a pending sentence-ending punctuation character and the
whitespace seen after it (reversed). -/
def flushFss : Option (Char × List Char) → List Char
  | none => []
  | some (p, ws) => p :: ws.reverse

/-- Stage 7 scanner: between [.!?], optional whitespace and [A-Z] place
exactly one space, the match consuming the capital; on a failed match the
pending text is emitted and scanning resumes at the current character. -/
def fixSentenceSpacingGo : Option (Char × List Char) → List Char → List Char
  | st, [] => flushFss st
  | none, c :: t =>
    if isSentPunct c then
      fixSentenceSpacingGo (some (c, [])) t
    else
      c :: fixSentenceSpacingGo none t
  | some (p, ws), c :: t =>
    if isPySpace c then
      fixSentenceSpacingGo (some (p, c :: ws)) t
    else if isUpperAscii c then
      p :: ' ' :: c :: fixSentenceSpacingGo none t
    else
      p :: ws.reverse ++
        (if isSentPunct c then
          fixSentenceSpacingGo (some (c, [])) t
        else
          c :: fixSentenceSpacingGo none t)

/-- Stage 7: re.sub placing one space between [.!?] and [A-Z]. -/
def fixSentenceSpacing (l : List Char) : List Char :=
  fixSentenceSpacingGo none l

/-- The whole cleaning pipeline on characters. -/
def cleanChars (l : List Char) : List Char :=
  pyStripChars
    (fixSentenceSpacing
      (rmSpaceBeforePunct
        (collapsePunctRuns
          (filterAllowed
            (replaceUnicodePunct
              (nlNormalize
                (collapseWs l)))))))

/-- ContentProcessingTools.clean_content.  Empty input returns the empty
string (the falsy-content guard); the try/except around the pure
transformation cannot fire in the model. -/
def clean_content (content : String) : String :=
  if content = "" then "" else ⟨cleanChars content.data⟩

/-- The string fed to hashlib.sha256 by
ContentProcessingTools.generate_content_hash (content_processor.py lines
247-263): the cleaned content, lower-cased. -/
def hashInput (content : String) : String :=
  pyLower (clean_content content)

/-- ContentProcessingTools.generate_content_hash.  The SHA-256 digest is an
external library call; the digest is modelled by its preimage (the string
fed to the hash), which identifies digests exactly up to SHA-256
collisions: two digests are equal if and only if the modelled values are
equal. -/
def generate_content_hash (content : String) : String :=
  hashInput content

/-! ## ContentProcessingTools.generate_summary (content_processor.py 107-149) -/

/-- The sentence list of generate_summary: re.split on runs of [.!?],
each piece stripped, empty pieces discarded. -/
def sentencesOf (content : String) : List (List Char) :=
  ((splitClassRuns isSentPunct content.data).map pyStripChars).filter
    (fun l => !l.isEmpty)

/-- The greedy accumulation loop of generate_summary: while the sentence
budget is not reached, append the next sentence followed by a period and a
space when the result still fits in max_length; stop at the first sentence
that does not fit. -/
def summaryGo (max_length sentences : Nat) :
    List (List Char) → List Char → Nat → List Char
  | [], summary, _ => summary
  | s :: rest, summary, sentence_count =>
    if sentences ≤ sentence_count then summary
    else
      let potential := summary ++ s ++ ['.', ' ']
      if potential.length ≤ max_length then
        summaryGo max_length sentences rest potential (sentence_count + 1)
      else summary

/-- ContentProcessingTools.generate_summary.  Empty input and an empty
sentence list return the empty string; otherwise the greedy loop runs and
the result is stripped.  The truncation of the content appears only in the
except handler of the source, which the pure model cannot reach. -/
def generate_summary (content : String) (max_length sentences : Nat) : String :=
  if content = "" then ""
  else
    let sentence_list := sentencesOf content
    if sentence_list.isEmpty then ""
    else ⟨pyStripChars (summaryGo max_length sentences sentence_list [] 0)⟩

/-! ## ContentProcessingTools.split_into_sections (content_processor.py 265-320) -/

/-- One section record produced by split_into_sections: the dict with keys
section_number, content (stripped), word_count (count of word runs of the
unstripped section) and character_count (its length). -/
structure SectionRec where
  section_number : Nat
  content : String
  word_count : Nat
  character_count : Nat
deriving DecidableEq

/-- Build the section dict from the running section text. -/
def mkSectionRec (num : Nat) (current : List Char) : SectionRec :=
  { section_number := num
    content := ⟨pyStripChars current⟩
    word_count := countWordRuns current
    character_count := current.length }

/-- The paragraph list of split_into_sections: content split on two
newlines, each piece stripped, empty pieces discarded. -/
def paragraphsOf (content : String) : List (List Char) :=
  ((splitOnPair nl nl content.data).map pyStripChars).filter (fun p => !p.isEmpty)

/-- The greedy packing loop of split_into_sections: grow the current
section while appending the next paragraph (joined by two newlines) stays
within max_section_length, otherwise emit the current section and start a
new one from the paragraph. -/
def sectionsGo (max_section_length : Nat) :
    List (List Char) → List Char → Nat → List SectionRec
  | [], current, num => if !current.isEmpty then [mkSectionRec num current] else []
  | p :: rest, current, num =>
    let potential := if current.isEmpty then p else current ++ [nl, nl] ++ p
    if potential.length ≤ max_section_length then
      sectionsGo max_section_length rest potential num
    else if !current.isEmpty then
      mkSectionRec num current :: sectionsGo max_section_length rest p (num + 1)
    else
      sectionsGo max_section_length rest p num

/-- ContentProcessingTools.split_into_sections. -/
def split_into_sections (content : String) (max_section_length : Nat) :
    List SectionRec :=
  if content = "" then []
  else sectionsGo max_section_length (paragraphsOf content) [] 1

/-! ## Data model of template records (template_manager.py)

A template is persisted as a JSON object with the fixed key set written by
TemplateManagementTools; the model gives it a structure with exactly those
fields.  save_template backfills created_at, usage_count, feedback_score
and feedback_history when missing; records of the model always carry every
field, so the backfill branches are vacuous here. -/

/-- Result of TemplateManagementTools._analyze_feedback. -/
structure FeedbackAnalysis where
  sentiment : String
  issues : List String
  suggestions : List String
  sections_mentioned : List String
deriving DecidableEq

/-- One proposed change dict of _generate_template_changes.  The source
dict has an optional key (named after the template section) present only
for section modifications; the key name is a Lean keyword, so the field is
called section' here. -/
structure Change where
  type : String
  description : String
  action : String
  section' : Option String := none
deriving DecidableEq

/-- One feedback history entry appended by the confirmed path of
update_template_from_feedback. -/
structure FeedbackEntry where
  timestamp : String
  feedback : String
  analysis : FeedbackAnalysis
  changes_applied : List Change
deriving DecidableEq

/-- A stored template record.  The source key holding the variable-name
list is a reserved Lean word, so the field is called variables' here. -/
structure Template where
  id : String
  name : String
  description : String
  content : String
  version : String
  created_at : String
  updated_at : String
  usage_count : Nat
  feedback_score : ℚ
  is_active : Bool
  variables' : List String
  feedback_history : List FeedbackEntry
deriving DecidableEq

/-- The template store: one record per id (the templates directory with
one JSON file per template id). -/
abbrev Store := List (String × Template)

/-- Read a record by id. -/
def storeGet (store : Store) (template_id : String) : Option Template :=
  match store with
  | [] => none
  | (k, t) :: rest => if k = template_id then some t else storeGet rest template_id

/-- Write a record by id (overwrite the file when present, create it
otherwise). -/
def storeSet (store : Store) (template_id : String) (t : Template) : Store :=
  match store with
  | [] => [(template_id, t)]
  | (k, u) :: rest =>
    if k = template_id then (k, t) :: rest
    else (k, u) :: storeSet rest template_id t

/-! ## Number parsing and printing used by the version bump -/

/-- Python int() on a digit string (the version components are plain
digit strings; signs and surrounding whitespace do not occur there). -/
def parseNatGo : List Char → Nat → Option Nat
  | [], acc => some acc
  | c :: t, acc =>
    if '0' ≤ c && c ≤ '9' then parseNatGo t (acc * 10 + (c.toNat - 48))
    else none

/-- Python int() on a list of characters, digits only. -/
def parseNat (l : List Char) : Option Nat :=
  if l.isEmpty then none else parseNatGo l 0

/-- Decimal digits of a natural number, most significant first; the first
argument is fuel, always called with enough of it. -/
def natDigitsGo : Nat → Nat → List Char
  | 0, _ => []
  | fuel + 1, n =>
    if n < 10 then [Char.ofNat (48 + n)]
    else natDigitsGo fuel (n / 10) ++ [Char.ofNat (48 + n % 10)]

/-- Python str() of a natural number. -/
def natToStr (n : Nat) : String :=
  ⟨natDigitsGo (n + 1) n⟩

/-- Python str.join with a separator. -/
def joinSep (sep : String) : List String → String
  | [] => ""
  | [s] => s
  | s :: rest => s ++ sep ++ joinSep sep rest

/-- The placeholder token of one variable name: a left brace, the name, a
right brace. -/
def bracePh (name : String) : String :=
  ⟨lbrace :: name.data ++ [rbrace]⟩

/-! ## TemplateManagementTools (src/tools/template_manager.py) -/

namespace TemplateTools

/-- TemplateManagementTools.load_template: read the record by id; None
when the file does not exist. -/
def load_template (store : Store) (template_id : String) : Option Template :=
  storeGet store template_id

/-- TemplateManagementTools.save_template: stamp id and updated_at, then
write the record.  The source also backfills created_at, usage_count,
feedback_score and feedback_history when the dict lacks them; records of
the model always carry every field, so those branches are vacuous.  The
write is modelled as always succeeding. -/
def save_template (store : Store) (template_id : String) (template_data : Template)
    (now : String) : Store :=
  storeSet store template_id { template_data with id := template_id, updated_at := now }

/-- TemplateManagementTools._analyze_feedback (lines 414-493): sentiment by
counting positive and negative word hits, issue tags by fixed trigger
phrases, mentioned sections by fixed section names; all matching is
substring containment against the lower-cased feedback. -/
def _analyze_feedback (feedback : String) : FeedbackAnalysis :=
  let feedback_lower := pyLower feedback
  let positive_words := ["good", "great", "excellent", "perfect", "like", "love", "better"]
  let negative_words := ["bad", "poor", "terrible", "hate", "dislike", "wrong", "issue"]
  let positive_count := (positive_words.filter (fun w => strContains feedback_lower w)).length
  let negative_count := (negative_words.filter (fun w => strContains feedback_lower w)).length
  let sentiment :=
    if positive_count > negative_count then "positive"
    else if negative_count > positive_count then "negative"
    else "neutral"
  let issue_patterns := [("too long", "length"), ("too short", "length"),
    ("unclear", "clarity"), ("confusing", "clarity"), ("missing", "completeness"),
    ("need more", "completeness"), ("repetitive", "redundancy"), ("boring", "engagement")]
  let issues := issue_patterns.filterMap
    (fun pr => if strContains feedback_lower pr.1 then some pr.2 else none)
  let sections := ["title", "introduction", "conclusion", "content", "summary"]
  let sections_mentioned := sections.filter (fun s => strContains feedback_lower s)
  { sentiment := sentiment, issues := issues, suggestions := [],
    sections_mentioned := sections_mentioned }

/-- TemplateManagementTools._generate_template_changes (lines 495-544):
one fixed change per recognised issue tag (length, clarity, completeness;
redundancy and engagement produce none), then one section-modification
change per mentioned section.  The template argument is read but not used
by the source. -/
def _generate_template_changes (_template_data : Template)
    (feedback_analysis : FeedbackAnalysis) : List Change :=
  let issueChanges := feedback_analysis.issues.filterMap (fun issue =>
    if issue = "length" then
      some { type := "content_adjustment",
             description := "Adjust content length based on feedback",
             action := "modify_sections" }
    else if issue = "clarity" then
      some { type := "clarity_improvement",
             description := "Improve clarity and readability",
             action := "add_explanations" }
    else if issue = "completeness" then
      some { type := "content_addition",
             description := "Add missing content sections",
             action := "add_sections" }
    else none)
  let sectionChanges := feedback_analysis.sections_mentioned.map (fun s =>
    { type := "section_modification", section' := some s,
      description := "Modify " ++ s ++ " section based on feedback",
      action := "update_section" })
  issueChanges ++ sectionChanges

/-- The instructions block appended by the content_adjustment patch. -/
def instructionsBlock : String :=
  "\n\n## Instructions\n\nGenerate content that is well-structured and appropriate in length."

/-- The main-content placeholder targeted by the clarity patch. -/
def mainContentPh : String := "{main_content}"

/-- The replacement text of the clarity patch. -/
def clarityNote : String := "{main_content}\n\n*Note: Keep content clear and concise*"

/-- The additional-information block appended by the content_addition
patch. -/
def additionalInfoBlock : String := "\n\n## Additional Information\n\n{additional_info}"

/-- One iteration of the loop of _apply_template_changes over the running
content and variable list. -/
def applyChangeStep (st : String × List String) (change : Change) :
    String × List String :=
  if change.type = "content_adjustment" then
    if strContains st.1 "## Instructions" then st
    else (st.1 ++ instructionsBlock, st.2)
  else if change.type = "clarity_improvement" then
    if strContains st.1 "clear and concise" then st
    else (pyReplace st.1 mainContentPh clarityNote, st.2)
  else if change.type = "content_addition" then
    if strContains st.1 "## Additional Information" then st
    else (st.1 ++ additionalInfoBlock,
      if st.2.contains "additional_info" then st.2 else st.2 ++ ["additional_info"])
  else st

/-- TemplateManagementTools._apply_template_changes (lines 546-587). -/
def _apply_template_changes (template_data : Template) (changes : List Change) :
    Template :=
  let st := changes.foldl applyChangeStep (template_data.content, template_data.variables')
  { template_data with content := st.1, variables' := st.2 }

/-- The version bump of the confirmed path: split on the dot, increment
the last component parsed with int(), join back.  None models the
ValueError of int() on a non-numeric component, which the surrounding
except turns into an error result with nothing saved. -/
def bumpPatch (version : String) : Option String :=
  let parts := (splitOnChar '.' version.data).map (fun l => (⟨l⟩ : String))
  match parts.reverse with
  | [] => none
  | last :: revInit =>
    match parseNat last.data with
    | none => none
    | some n => some (joinSep "." (revInit.reverse ++ [natToStr (n + 1)]))

/-- The result dict of update_template_from_feedback.  Keys absent from a
given return dict keep their default here. -/
structure UpdateResult where
  status : String
  message : String
  proposed_changes : List Change := []
  feedback_analysis : Option FeedbackAnalysis := none
  changes_applied : List Change := []
  new_version : Option String := none
deriving DecidableEq

/-- TemplateManagementTools.update_template_from_feedback (lines 309-412):
load the template (error when absent), analyze the feedback and build the
proposed changes; without user confirmation return them with nothing
persisted; with confirmation and a non-empty proposal list apply the
changes, append the feedback entry to the history, bump the patch
component of the version and save; otherwise report no_changes with
nothing persisted. -/
def update_template_from_feedback (store : Store) (template_id feedback : String)
    (user_confirmation : Bool) (now : String) : UpdateResult × Store :=
  match load_template store template_id with
  | none => ({ status := "error", message := "Template not found" }, store)
  | some template_data =>
    let feedback_analysis := _analyze_feedback feedback
    let proposed_changes := _generate_template_changes template_data feedback_analysis
    if !user_confirmation then
      ({ status := "pending_confirmation",
         message := "Template update requires user confirmation",
         proposed_changes := proposed_changes,
         feedback_analysis := some feedback_analysis }, store)
    else if !proposed_changes.isEmpty then
      let updated0 := _apply_template_changes template_data proposed_changes
      let entry : FeedbackEntry :=
        { timestamp := now, feedback := feedback, analysis := feedback_analysis,
          changes_applied := proposed_changes }
      let updated1 :=
        { updated0 with feedback_history := updated0.feedback_history ++ [entry] }
      match bumpPatch updated1.version with
      | none =>
        ({ status := "error", message := "invalid version component" }, store)
      | some v =>
        let updated2 := { updated1 with version := v }
        ({ status := "success", message := "Template updated successfully",
           changes_applied := proposed_changes, new_version := some v },
         save_template store template_id updated2 now)
    else
      ({ status := "no_changes", message := "No changes to apply" }, store)

/-- TemplateManagementTools.increment_usage_count (lines 589-617): load,
add one to usage_count, save; False with nothing written when the template
does not exist. -/
def increment_usage_count (store : Store) (template_id : String) (now : String) :
    Bool × Store :=
  match load_template store template_id with
  | none => (false, store)
  | some template_data =>
    (true, save_template store template_id
      { template_data with usage_count := template_data.usage_count + 1 } now)

/-- Python round at two decimal places: round half to even on the scaled
value.  The source rounds a float; the model rounds the rational. -/
def pyRound2 (q : ℚ) : ℚ :=
  let scaled := q * 100
  let f := ⌊scaled⌋
  let r := scaled - f
  (if r < 1 / 2 then (f : ℚ)
   else if 1 / 2 < r then (f + 1 : ℤ)
   else if f % 2 = 0 then (f : ℚ) else (f + 1 : ℤ)) / 100

/-- TemplateManagementTools.update_feedback_score (lines 619-661): replace
the score with the usage-weighted running average rounded to two decimals;
no clamping of the incoming score takes place.  (The source falls back to
usage_count 1 when the key is missing; records of the model always carry
the field.) -/
def update_feedback_score (store : Store) (template_id : String) (score : ℚ)
    (now : String) : Bool × Store :=
  match load_template store template_id with
  | none => (false, store)
  | some template_data =>
    let current_score := template_data.feedback_score
    let usage_count := template_data.usage_count
    let new_score := (current_score * usage_count + score) / (usage_count + 1)
    (true, save_template store template_id
      { template_data with feedback_score := pyRound2 new_score } now)

/-- TemplateManagementTools.render_template (lines 663-699): load the
template (empty string when absent), then for each bound variable in
order replace every occurrence of its placeholder by its value, then
increment the usage count.  The variable dict is modelled by its item
list in insertion order. -/
def render_template (store : Store) (template_id : String)
    (vars : List (String × String)) (now : String) : String × Store :=
  match load_template store template_id with
  | none => ("", store)
  | some template_data =>
    let content := vars.foldl
      (fun c pr => pyReplace c (bracePh pr.1) pr.2) template_data.content
    (content, (increment_usage_count store template_id now).2)

end TemplateTools

/-! ## TemplateManagerAgent tool closures (src/agents/template_manager.py) -/

namespace TemplateAgent

/-- Result of TemplateManagerAgent._perform_detailed_feedback_analysis. -/
structure DetailedAnalysis where
  sentiment : String
  specific_issues : List String
  affected_sections : List String
  improvement_areas : List String
  severity : String
  feedback_categories : List String
deriving DecidableEq

/-- One suggestion dict of _generate_improvement_suggestions.  The
optional key naming a template section is a Lean keyword, so the field is
called section' here. -/
structure Suggestion where
  type : String
  section' : Option String := none
  description : String
  action : String
  priority : String
  implementation : String
deriving DecidableEq

/-- Result of TemplateManagerAgent._assess_change_impact. -/
structure ImpactAssessment where
  overall_impact : String
  affected_components : List String
  backward_compatibility : Bool
  risk_level : String
  estimated_effort : String
  user_confirmation_required : Bool
deriving DecidableEq

/-- The result dict of the analyze_user_feedback tool closure.  Keys
absent from a given return dict keep their default here; in particular the
error returns carry no suggestion list, modelled by the empty default. -/
structure AnalyzeResult where
  status : String
  message : String := ""
  template_id : String := ""
  feedback_analysis : Option DetailedAnalysis := none
  improvement_suggestions : List Suggestion := []
  impact_assessment : Option ImpactAssessment := none
  requires_user_confirmation : Bool := false
  analysis_timestamp : String := ""
deriving DecidableEq

/-- TemplateManagerAgent._perform_detailed_feedback_analysis (lines
298-370): sentiment from fixed indicator lists, severity medium when the
negative score both wins and exceeds two, issue tags and affected sections
from fixed phrase maps, improvement areas derived from the issue tags. -/
def _perform_detailed_feedback_analysis (feedback : String)
    (_template_data : Template) (_generated_content : String) : DetailedAnalysis :=
  let feedback_lower := pyLower feedback
  let positive_indicators := ["good", "great", "excellent", "perfect", "like",
    "love", "helpful", "clear", "well-written", "informative"]
  let negative_indicators := ["bad", "poor", "terrible", "awful", "hate",
    "dislike", "confusing", "unclear", "boring", "repetitive", "wrong"]
  let positive_score :=
    (positive_indicators.filter (fun w => strContains feedback_lower w)).length
  let negative_score :=
    (negative_indicators.filter (fun w => strContains feedback_lower w)).length
  let sentiment :=
    if positive_score > negative_score then "positive"
    else if negative_score > positive_score then "negative"
    else "neutral"
  let severity :=
    if negative_score > positive_score then
      (if negative_score > 2 then "medium" else "low")
    else "low"
  let issue_patterns : List (String × List String) :=
    [("length", ["too long", "too short", "lengthy", "brief"]),
     ("clarity", ["unclear", "confusing", "hard to understand", "complicated"]),
     ("structure", ["poorly structured", "disorganized", "messy layout"]),
     ("tone", ["wrong tone", "too formal", "too casual", "inappropriate"]),
     ("content", ["missing information", "incomplete", "lacks detail", "superficial"]),
     ("formatting", ["bad formatting", "poor layout", "formatting issues"])]
  let specific_issues := issue_patterns.filterMap (fun pr =>
    if pr.2.any (fun pat => strContains feedback_lower pat) then some pr.1 else none)
  let template_sections : List (String × List String) :=
    [("title", ["title", "heading", "header"]),
     ("introduction", ["introduction", "intro", "opening", "beginning"]),
     ("main_content", ["content", "body", "main section", "article"]),
     ("conclusion", ["conclusion", "ending", "summary", "wrap-up"]),
     ("formatting", ["format", "layout", "structure", "organization"])]
  let affected_sections := template_sections.filterMap (fun pr =>
    if pr.2.any (fun k => strContains feedback_lower k) then some pr.1 else none)
  let improvement_areas :=
    (if specific_issues.contains "length" then ["content_length"] else []) ++
    (if specific_issues.contains "clarity" then ["readability"] else []) ++
    (if specific_issues.contains "structure" then ["organization"] else []) ++
    (if specific_issues.contains "tone" then ["writing_style"] else [])
  { sentiment := sentiment, specific_issues := specific_issues,
    affected_sections := affected_sections, improvement_areas := improvement_areas,
    severity := severity, feedback_categories := specific_issues }

/-- The duplicate-removal loop at the end of
_generate_improvement_suggestions: keep the first suggestion for each
type-and-section key. -/
def dedupeSuggestions (seen : List String) : List Suggestion → List Suggestion
  | [] => []
  | s :: rest =>
    let key := s.type ++ "_" ++ s.section'.getD ""
    if seen.contains key then dedupeSuggestions seen rest
    else s :: dedupeSuggestions (key :: seen) rest

/-- TemplateManagerAgent._generate_improvement_suggestions (lines 372-449):
one fixed suggestion per recognised issue tag, one per affected
introduction or conclusion section, deduplicated by type and section. -/
def _generate_improvement_suggestions (analysis : DetailedAnalysis)
    (_template_data : Template) : List Suggestion :=
  let issueSuggestions := analysis.specific_issues.filterMap (fun issue =>
    if issue = "length" then
      some { type := "content_adjustment",
             description := "Adjust content length guidelines in template",
             action := "modify_content_instructions", priority := "medium",
             implementation := "Add length guidelines or modify content sections" }
    else if issue = "clarity" then
      some { type := "clarity_improvement",
             description := "Improve clarity and readability instructions",
             action := "add_clarity_guidelines", priority := "high",
             implementation := "Add instructions for clear, concise writing" }
    else if issue = "structure" then
      some { type := "structural_improvement",
             description := "Improve template organization and flow",
             action := "restructure_template", priority := "high",
             implementation := "Reorganize sections for better logical flow" }
    else if issue = "tone" then
      some { type := "tone_adjustment",
             description := "Adjust tone and writing style guidelines",
             action := "modify_tone_instructions", priority := "medium",
             implementation := "Add tone-specific instructions or examples" }
    else none)
  let sectionSuggestions := analysis.affected_sections.filterMap (fun s =>
    if s = "introduction" then
      some { type := "section_improvement", section' := some "introduction",
             description := "Improve introduction section based on feedback",
             action := "enhance_introduction", priority := "medium",
             implementation := "Add guidelines for engaging introductions" }
    else if s = "conclusion" then
      some { type := "section_improvement", section' := some "conclusion",
             description := "Improve conclusion section based on feedback",
             action := "enhance_conclusion", priority := "medium",
             implementation := "Add guidelines for effective conclusions" }
    else none)
  dedupeSuggestions [] (issueSuggestions ++ sectionSuggestions)

/-- TemplateManagerAgent._assess_change_impact (lines 451-488). -/
def _assess_change_impact (suggestions : List Suggestion)
    (_template_data : Template) : ImpactAssessment :=
  let high_impact_types := ["structural_improvement", "restructure_template"]
  let medium_impact_types := ["section_improvement", "content_adjustment"]
  let high_impact_count :=
    (suggestions.filter (fun s => high_impact_types.contains s.type)).length
  let medium_impact_count :=
    (suggestions.filter (fun s => medium_impact_types.contains s.type)).length
  let base : ImpactAssessment :=
    { overall_impact := "low", affected_components := [],
      backward_compatibility := true, risk_level := "low",
      estimated_effort := "minimal", user_confirmation_required := true }
  let assessed :=
    if high_impact_count > 0 then
      { base with
        overall_impact := "high",
        risk_level := "medium",
        estimated_effort := "significant",
        backward_compatibility := false }
    else if medium_impact_count > 1 then
      { base with overall_impact := "medium", estimated_effort := "moderate" }
    else base
  let components := (suggestions.filterMap (fun s => s.section')) ++
    (suggestions.map (fun s => s.type))
  { assessed with affected_components := components.dedup }

/-- The analyze_user_feedback tool closure (lines 69-134): an error result
naming the missing feedback when the stripped feedback is empty, an error
result when the template does not exist, otherwise the detailed analysis,
the improvement suggestions and the impact assessment, always requiring
user confirmation.  The closure only reads the store; it calls no save. -/
def analyze_user_feedback (store : Store) (feedback template_id : String)
    (generated_content now : String) : AnalyzeResult :=
  if pyStrip feedback = "" then
    { status := "error", message := "No feedback provided for analysis" }
  else
    match TemplateTools.load_template store template_id with
    | none =>
      { status := "error", message := "Template " ++ template_id ++ " not found" }
    | some template_data =>
      let analysis :=
        _perform_detailed_feedback_analysis feedback template_data generated_content
      let suggestions := _generate_improvement_suggestions analysis template_data
      let impact := _assess_change_impact suggestions template_data
      { status := "success", template_id := template_id,
        feedback_analysis := some analysis,
        improvement_suggestions := suggestions,
        impact_assessment := some impact,
        requires_user_confirmation := true,
        analysis_timestamp := now }

end TemplateAgent

/-! ## Normal-form predicate for cleaned text

clean_content is not idempotent (C4); the predicate below captures text on
which every stage of the pipeline is the identity: all whitespace is a
single plain space, no character is deleted or rewritten, no two adjacent
sentence-ending punctuation marks, no whitespace directly before
punctuation, no sentence-ending punctuation directly before a capital, and
no leading or trailing whitespace. -/

/-- Per-character condition: the character survives stages 3 and 4
unchanged, and any whitespace is the plain space. -/
def cleanedCharOk (c : Char) : Bool :=
  isAllowedChar c && (!isPySpace c || c = ' ')

/-- Per-adjacent-pair condition: no whitespace pair (stage 1), no
whitespace before [,.!?;:] (stage 6), no [.!?] pair (stage 5), no [.!?]
directly followed by [A-Z] (stage 7). -/
def cleanedPairOk (c d : Char) : Bool :=
  !(isPySpace c && isPySpace d) &&
  !(isPySpace c && isPunctAfterSpace d) &&
  !(isSentPunct c && isSentPunct d) &&
  !(isSentPunct c && isUpperAscii d)

/-- All adjacent pairs satisfy cleanedPairOk. -/
def pairsOk : List Char → Bool
  | [] => true
  | [_] => true
  | c :: d :: t => cleanedPairOk c d && pairsOk (d :: t)

/-- Text in cleaned normal form. -/
def cleanedStr (l : List Char) : Bool :=
  l.all cleanedCharOk && pairsOk l &&
  (match l.head? with
   | none => true
   | some c => !isPySpace c) &&
  (match l.getLast? with
   | none => true
   | some c => !isPySpace c)

/-! ## Segment view of template content (for the render claims)

Template content is viewed as a sequence of brace-free literal pieces and
placeholders; the view is only a statement device, render_template itself
works on the flat string. -/

/-- One piece of template content: a literal or a placeholder. -/
inductive Seg where
  | lit (s : String)
  | ph (name : String)
deriving DecidableEq

/-- The flat text of a segment sequence. -/
def flattenSegs : List Seg → String
  | [] => ""
  | Seg.lit s :: rest => s ++ flattenSegs rest
  | Seg.ph n :: rest => bracePh n ++ flattenSegs rest

/-- A string without brace characters. -/
def braceFreeStr (s : String) : Bool :=
  s.data.all (fun c => c ≠ lbrace && c ≠ rbrace)

/-- Well-formed segment: literal text and placeholder names carry no brace
character. -/
def wfSeg : Seg → Bool
  | Seg.lit s => braceFreeStr s
  | Seg.ph n => braceFreeStr n

/-- First binding of a name in the variable item list (Python dict keys
are unique, so this is the binding of the name). -/
def lookupVar (n : String) : List (String × String) → Option String
  | [] => none
  | (k, v) :: rest => if k = n then some v else lookupVar n rest

/-- Modelled from the spec: the render contract of section 4.2 —
substitute every occurrence of each bound placeholder with its string
value and leave every placeholder with no bound variable verbatim
(simultaneous substitution over the segment view). -/
def specRender (vars : List (String × String)) : List Seg → String
  | [] => ""
  | Seg.lit s :: rest => s ++ specRender vars rest
  | Seg.ph n :: rest =>
    (match lookupVar n vars with
     | some v => v
     | none => bracePh n) ++ specRender vars rest

/-- An adjacent occurrence of the pair (a, b) somewhere in the list. -/
def hasPairSub (a b : Char) : List Char → Bool
  | [] => false
  | [_] => false
  | c :: d :: t => (c = a && d = b) || hasPairSub a b (d :: t)

/-- No non-empty suffix of x is a prefix of y (an overlap-impossibility
check between two patterns). -/
def noSufPre (x y : List Char) : Bool :=
  x.tails.all (fun a => a.isEmpty || !a.isPrefixOf y)

/-- Substitute one binding over the segment view: every placeholder of the
name becomes the literal value. -/
def substSegFun (n v : String) : Seg → Seg
  | Seg.lit s => Seg.lit s
  | Seg.ph m => if m = n then Seg.lit v else Seg.ph m

/-- Join a list of paragraphs with the two-newline separator (the form the
section loop builds incrementally). -/
def joinNlNl : List (List Char) → List Char
  | [] => []
  | [p] => p
  | p :: q :: rest => p ++ nl :: nl :: joinNlNl (q :: rest)

/-- A paragraph in the shape produced by paragraphsOf: non-empty, no
two-newline separator inside, non-whitespace first and last character. -/
def goodPara (p : List Char) : Prop :=
  p ≠ [] ∧ hasPairSub nl nl p = false ∧
  (∀ c, p.head? = some c → isPySpace c = false) ∧
  (∀ c, p.getLast? = some c → isPySpace c = false)

/-! ## Concrete fixtures used by witness theorems -/

/-- A stored template in the shape created by create_template /
_ensure_default_template, at version 1.0.0 with a fresh usage counter and
the default feedback score. -/
def tmplFixture : Template :=
  { id := "default"
    name := "Default Blog Template"
    description := "Standard blog post template"
    content := "# {title}\n\n## Introduction\n\n{introduction}\n\n## Main Content\n\n{main_content}"
    version := "1.0.0"
    created_at := "2025-01-01T00:00:00"
    updated_at := "2025-01-01T00:00:00"
    usage_count := 0
    feedback_score := 5
    is_active := true
    variables' := ["title", "introduction", "main_content"]
    feedback_history := [] }

/-- A store holding the fixture under the id default. -/
def storeFixture : Store := [("default", tmplFixture)]

/-- The segment view of the fixture's content. -/
def segFixture : List Seg :=
  [Seg.lit "# ", Seg.ph "title",
   Seg.lit "\n\n## Introduction\n\n", Seg.ph "introduction",
   Seg.lit "\n\n## Main Content\n\n", Seg.ph "main_content"]

/-! # Lemmas

General facts about the scanners, used by the claim theorems below. -/

/-! ## Substring membership -/

theorem containsSub_iff (s pat : List Char) :
    containsSub s pat = true ↔ pat <:+: s := by
  induction s with
  | nil =>
    simp [containsSub, List.isEmpty_iff]
  | cons c t ih =>
    simp [containsSub, List.infix_cons_iff, ih, List.isPrefixOf_iff_prefix,
      Bool.or_eq_true]

theorem containsSub_append_right {r pat : List Char} (l : List Char)
    (h : containsSub r pat = true) : containsSub (l ++ r) pat = true := by
  rw [containsSub_iff] at h ⊢
  exact h.trans (List.suffix_append l r).isInfix

theorem containsSub_append_left {l pat : List Char} (r : List Char)
    (h : containsSub l pat = true) : containsSub (l ++ r) pat = true := by
  rw [containsSub_iff] at h ⊢
  exact h.trans (List.prefix_append l r).isInfix

theorem noSufPre_spec {x y : List Char} (h : noSufPre x y = true) :
    ∀ a, a <:+ x → a ≠ [] → ¬ a <+: y := by
  intro a hsuf hne hpre
  have hmem : a ∈ x.tails := (List.mem_tails a x).mpr hsuf
  have := List.all_eq_true.mp h a hmem
  rcases Bool.or_eq_true _ _ |>.mp this with h1 | h2
  · exact hne (List.isEmpty_iff.mp h1)
  · rw [Bool.not_eq_eq_eq_not, Bool.not_true] at h2
    rw [List.isPrefixOf_iff_prefix.symm] at hpre
    simp [hpre] at h2

/-- Decomposition of an occurrence inside an appended pair: the occurrence
lies in the left part, in the right part, or crosses the border. -/
theorem infix_append_cases {x l r : List Char} (h : x <:+: l ++ r) :
    x <:+: l ∨ x <:+: r ∨
      ∃ a b, x = a ++ b ∧ a ≠ [] ∧ b ≠ [] ∧ a <:+ l ∧ b <+: r := by
  obtain ⟨u, v, huv⟩ := h
  rw [List.append_assoc] at huv
  rcases List.append_eq_append_iff.mp huv with ⟨a', ha1, ha2⟩ | ⟨c', _, hc2⟩
  · rcases List.append_eq_append_iff.mp ha2 with ⟨k, hk1, _⟩ | ⟨m, hm1, hm2⟩
    · left
      exact ⟨u, k, by rw [ha1, hk1, List.append_assoc]⟩
    · by_cases hae : a' = []
      · subst hae
        simp only [List.nil_append] at hm1
        right; left
        exact ⟨[], v, by simp [hm2, hm1]⟩
      · by_cases hme : m = []
        · subst hme
          simp only [List.append_nil] at hm1
          left
          exact ⟨u, [], by simp [ha1, hm1]⟩
        · right; right
          exact ⟨a', m, hm1, hae, hme, ⟨u, ha1.symm⟩, ⟨v, hm2.symm⟩⟩
  · right; left
    exact ⟨c', v, by rw [hc2, List.append_assoc]⟩

/-! ## Scanner lemmas for str.replace -/

theorem replaceAllGo_of_not_contains (p0 : Char) (prest rep : List Char) :
    ∀ s, containsSub s (p0 :: prest) = false →
      replaceAllGo p0 prest rep 0 s = s := by
  intro s
  induction s with
  | nil => intro; rfl
  | cons c t ih =>
    intro h
    simp only [containsSub, Bool.or_eq_false_iff] at h
    simp [replaceAllGo, h.1, ih h.2]

theorem rep_infix_replaceAllGo (p0 : Char) (prest rep : List Char) :
    ∀ s, containsSub s (p0 :: prest) = true →
      rep <:+: replaceAllGo p0 prest rep 0 s := by
  intro s
  induction s with
  | nil => simp [containsSub]
  | cons c t ih =>
    intro h
    by_cases hpre : (p0 :: prest).isPrefixOf (c :: t)
    · simp only [replaceAllGo, hpre, if_true]
      exact (List.prefix_append rep _).isInfix
    · simp only [containsSub, hpre, Bool.false_or] at h
      simp only [replaceAllGo, hpre, if_false]
      obtain ⟨u, v, huv⟩ := ih h
      exact ⟨c :: u, v, by simp [huv]⟩

theorem replaceAllGo_copy_of_head_ne (p0 : Char) (prest rep : List Char) :
    ∀ l r, (∀ c ∈ l, c ≠ p0) →
      replaceAllGo p0 prest rep 0 (l ++ r) = l ++ replaceAllGo p0 prest rep 0 r := by
  intro l
  induction l with
  | nil => intro r _; rfl
  | cons c l' ih =>
    intro r h
    have hc : c ≠ p0 := h c (List.mem_cons_self c l')
    have hpre : (p0 :: prest).isPrefixOf (c :: (l' ++ r)) = false := by
      simp [List.isPrefixOf]
      intro he
      exact absurd he.symm hc
    simp only [List.cons_append, replaceAllGo, List.append_eq, hpre,
      Bool.false_eq_true, if_false]
    rw [ih r (fun d hd => h d (List.mem_cons_of_mem c hd))]

theorem replaceAllGo_skip (p0 : Char) (prest rep : List Char) :
    ∀ l r, replaceAllGo p0 prest rep l.length (l ++ r) =
      replaceAllGo p0 prest rep 0 r := by
  intro l
  induction l with
  | nil => intro r; rfl
  | cons c l' ih => intro r; simpa [replaceAllGo] using ih r

theorem replaceAllGo_match (p0 : Char) (prest rep r : List Char) :
    replaceAllGo p0 prest rep 0 ((p0 :: prest) ++ r) =
      rep ++ replaceAllGo p0 prest rep 0 r := by
  have hpre : (p0 :: prest).isPrefixOf (p0 :: (prest ++ r)) = true :=
    List.isPrefixOf_iff_prefix.mpr ⟨r, by simp⟩
  simp only [List.cons_append, replaceAllGo, List.append_eq, hpre, if_true]
  rw [replaceAllGo_skip]

theorem replaceAllGo_copy_region (p0 : Char) (prest rep : List Char) :
    ∀ x u, (∀ j, j < x.length →
        (p0 :: prest).isPrefixOf ((x ++ u).drop j) = false) →
      replaceAllGo p0 prest rep 0 (x ++ u) = x ++ replaceAllGo p0 prest rep 0 u := by
  intro x
  induction x with
  | nil => intro u _; rfl
  | cons c x' ih =>
    intro u h
    have h0 : (p0 :: prest).isPrefixOf (c :: (x' ++ u)) = false := by
      have := h 0 (by simp)
      simpa using this
    simp only [List.cons_append, replaceAllGo, List.append_eq, h0,
      Bool.false_eq_true, if_false]
    rw [ih u]
    intro j hj
    have := h (j + 1) (by simpa using Nat.succ_lt_succ hj)
    simpa using this

/-- Infix preservation under replacement: when no occurrence of x can
overlap an occurrence of the pattern (no containment either way, no
non-empty suffix of one being a prefix of the other), every occurrence of
x survives str.replace whatever the replacement text is. -/
theorem infix_replaceAllGo (x : List Char) (p0 : Char) (prest rep : List Char)
    (hx : x ≠ [])
    (hC : containsSub (p0 :: prest) x = false)
    (hD : containsSub x (p0 :: prest) = false)
    (hsX : noSufPre x (p0 :: prest) = true)
    (hsP : noSufPre (p0 :: prest) x = true) :
    ∀ s, x <:+: s → x <:+: replaceAllGo p0 prest rep 0 s := by
  have main : ∀ n s, s.length ≤ n → x <:+: s →
      x <:+: replaceAllGo p0 prest rep 0 s := by
    intro n
    induction n with
    | zero =>
      intro s hs hinf
      rw [List.length_eq_zero.mp (Nat.le_zero.mp hs)] at hinf
      exact absurd (List.infix_nil.mp hinf) hx
    | succ n ih =>
      intro s hs hinf
      match s with
      | [] => exact absurd (List.infix_nil.mp hinf) hx
      | c :: t =>
        by_cases hpre : (p0 :: prest).isPrefixOf (c :: t) = true
        · obtain ⟨t', ht'⟩ := List.isPrefixOf_iff_prefix.mp hpre
          rw [← ht'] at hinf hs ⊢
          rw [replaceAllGo_match]
          rcases infix_append_cases hinf with h1 | h2 | h3
          · rw [← containsSub_iff] at h1
            rw [h1] at hC
            cases hC
          · have ht'len : t'.length ≤ n := by
              have := List.length_append (p0 :: prest) t'
              simp only [List.length_cons] at this hs
              omega
            exact (ih t' ht'len h2).trans (List.suffix_append rep _).isInfix
          · obtain ⟨a, b, hab, hane, _, hasuf, _⟩ := h3
            have hapre : a <+: x := ⟨b, hab.symm⟩
            exact absurd hapre (noSufPre_spec hsP a hasuf hane)
        · rcases List.infix_cons_iff.mp hinf with hxp | hxt
          · -- x is a prefix of c :: t : the whole region is copied
            obtain ⟨u, hu⟩ := hxp
            have hnomatch : ∀ j, j < x.length →
                (p0 :: prest).isPrefixOf ((x ++ u).drop j) = false := by
              intro j hj
              by_contra hmatch
              rw [Bool.not_eq_false] at hmatch
              obtain ⟨w, hw⟩ := List.isPrefixOf_iff_prefix.mp hmatch
              rw [List.drop_append_of_le_length (Nat.le_of_lt hj)] at hw
              by_cases hlen : (p0 :: prest).length ≤ (x.drop j).length
              · have hpx : (p0 :: prest) <+: x.drop j := by
                  have h1 : (p0 :: prest) <+: x.drop j ++ u := ⟨w, hw⟩
                  exact List.prefix_of_prefix_length_le h1
                    (List.prefix_append _ _) hlen
                have : (p0 :: prest) <:+: x :=
                  hpx.isInfix.trans (List.drop_suffix j x).isInfix
                rw [← containsSub_iff] at this
                rw [this] at hD
                cases hD
              · have hxd : x.drop j <+: (p0 :: prest) := by
                  have h1 : (p0 :: prest) <+: x.drop j ++ u := ⟨w, hw⟩
                  exact List.prefix_of_prefix_length_le
                    (List.prefix_append _ _) h1 (Nat.le_of_not_lt
                      (fun hcon => hlen (Nat.le_of_lt hcon)))
                have hjne : x.drop j ≠ [] := by
                  intro hcon
                  have := List.length_drop j x
                  rw [hcon] at this
                  simp at this
                  omega
                exact absurd hxd
                  (noSufPre_spec hsX (x.drop j) (List.drop_suffix j x) hjne)
            rw [← hu, replaceAllGo_copy_region p0 prest rep x u hnomatch]
            exact (List.prefix_append x _).isInfix
          · have hgo : replaceAllGo p0 prest rep 0 (c :: t) =
                c :: replaceAllGo p0 prest rep 0 t := by
              simp [replaceAllGo, hpre]
            rw [hgo]
            have htlen : t.length ≤ n := by
              simp only [List.length_cons] at hs
              omega
            obtain ⟨u, v, huv⟩ := ih t htlen hxt
            exact ⟨c :: u, v, by simp [huv]⟩
  intro s
  exact main s.length s (Nat.le_refl _)

/-! ## Store lemmas -/

theorem storeGet_storeSet_self (store : Store) (k : String) (t : Template) :
    storeGet (storeSet store k t) k = some t := by
  induction store with
  | nil => simp [storeSet, storeGet]
  | cons p rest ih =>
    by_cases hk : p.1 = k
    · simp [storeSet, storeGet, hk]
    · simp [storeSet, storeGet, hk, ih]

theorem storeGet_storeSet_other (store : Store) (k k' : String) (t : Template)
    (h : k' ≠ k) : storeGet (storeSet store k t) k' = storeGet store k' := by
  have hkk : k ≠ k' := fun he => h he.symm
  induction store with
  | nil => simp [storeSet, storeGet, hkk]
  | cons p rest ih =>
    obtain ⟨a, u⟩ := p
    by_cases ha : a = k
    · subst ha
      simp [storeSet, storeGet, hkk]
    · simp only [storeSet, storeGet, if_neg ha]
      by_cases ha' : a = k'
      · simp [storeGet, ha']
      · simp [storeGet, ha', ih]

/-! ## String-level wrappers for the scanner lemmas -/

theorem mk_data (s : String) : (⟨s.data⟩ : String) = s := rfl

theorem string_data_append (s t : String) : (s ++ t).data = s.data ++ t.data := rfl

theorem strContains_append_of_right {b m : String} (s : String)
    (h : strContains b m = true) : strContains (s ++ b) m = true := by
  unfold strContains at *
  rw [string_data_append]
  exact containsSub_append_right _ h

theorem pyReplace_of_not_contains (s pat rep : String)
    (h : strContains s pat = false) : pyReplace s pat rep = s := by
  unfold strContains at h
  unfold pyReplace replaceAll
  cases hp : pat.data with
  | nil => exact mk_data s
  | cons p0 prest =>
    rw [hp] at h
    show (⟨replaceAllGo p0 prest rep.data 0 s.data⟩ : String) = s
    rw [replaceAllGo_of_not_contains p0 prest rep.data s.data h]

theorem strContains_pyReplace_preserved (m pat rep s : String)
    (hm : m.data ≠ [])
    (hC : containsSub pat.data m.data = false)
    (hD : containsSub m.data pat.data = false)
    (hsX : noSufPre m.data pat.data = true)
    (hsP : noSufPre pat.data m.data = true)
    (h : strContains s m = true) :
    strContains (pyReplace s pat rep) m = true := by
  unfold strContains pyReplace replaceAll at *
  cases hp : pat.data with
  | nil => simpa using h
  | cons p0 prest =>
    rw [hp] at hC hD hsX hsP
    rw [containsSub_iff] at h ⊢
    exact infix_replaceAllGo m.data p0 prest rep.data hm hC hD hsX hsP s.data h

theorem strContains_pyReplace_of_contains_rep {s pat rep m : String}
    (hrep : strContains rep m = true) (h : strContains s pat = true)
    (hpne : pat.data ≠ []) :
    strContains (pyReplace s pat rep) m = true := by
  unfold strContains pyReplace replaceAll at *
  cases hp : pat.data with
  | nil => exact absurd hp hpne
  | cons p0 prest =>
    rw [hp] at h
    rw [containsSub_iff] at hrep ⊢
    exact hrep.trans (rep_infix_replaceAllGo p0 prest rep.data s.data h)

theorem strContains_append_false {s b pat : String}
    (hl : strContains s pat = false) (hB : strContains b pat = false)
    (hd : ∀ c, b.data.head? = some c → c ∉ pat.data) :
    strContains (s ++ b) pat = false := by
  by_contra h
  rw [Bool.not_eq_false] at h
  unfold strContains at h hl hB
  rw [string_data_append, containsSub_iff] at h
  rcases infix_append_cases h with h1 | h2 | ⟨a, bb, hab, _, hbne, _, hbpre⟩
  · rw [← containsSub_iff] at h1
    rw [h1] at hl
    cases hl
  · rw [← containsSub_iff] at h2
    rw [h2] at hB
    cases hB
  · obtain ⟨w, hw⟩ := hbpre
    cases bb with
    | nil => exact hbne rfl
    | cons c bb' =>
      have hhead : b.data.head? = some c := by
        rw [← hw]
        rfl
      have hmem : c ∈ pat.data := by
        rw [hab]
        exact List.mem_append_right a (List.mem_cons_self c bb')
      exact hd c hhead hmem

theorem strContains_append_of_left {s m : String} (b : String)
    (h : strContains s m = true) : strContains (s ++ b) m = true := by
  unfold strContains at *
  rw [string_data_append]
  exact containsSub_append_left _ h

/-! ## Idempotence lemmas for _apply_template_changes -/

namespace TemplateTools

theorem step_preserves_instructions (st : String × List String) (c : Change)
    (h : strContains st.1 "## Instructions" = true) :
    strContains (applyChangeStep st c).1 "## Instructions" = true := by
  unfold applyChangeStep
  split_ifs <;>
    first
      | exact h
      | exact strContains_append_of_left _ h
      | exact strContains_pyReplace_preserved "## Instructions" mainContentPh
          clarityNote st.1 (by decide) (by decide) (by decide) (by decide)
          (by decide) h

end TemplateTools

namespace TemplateTools

theorem step_preserves_additional (st : String × List String) (c : Change)
    (h : strContains st.1 "## Additional Information" = true) :
    strContains (applyChangeStep st c).1 "## Additional Information" = true := by
  unfold applyChangeStep
  split_ifs <;>
    first
      | exact h
      | exact strContains_append_of_left _ h
      | exact strContains_pyReplace_preserved "## Additional Information"
          mainContentPh clarityNote st.1 (by decide) (by decide) (by decide)
          (by decide) (by decide) h

theorem step_preserves_clear (st : String × List String) (c : Change)
    (h : strContains st.1 "clear and concise" = true) :
    strContains (applyChangeStep st c).1 "clear and concise" = true := by
  unfold applyChangeStep
  split_ifs <;>
    first
      | exact h
      | exact strContains_append_of_left _ h

theorem step_preserves_no_mainContent (st : String × List String) (c : Change)
    (h : strContains st.1 mainContentPh = false) :
    strContains (applyChangeStep st c).1 mainContentPh = false := by
  have hblockI : ∀ ch, instructionsBlock.data.head? = some ch → ch ∉ mainContentPh.data := by
    intro ch hch
    simp only [show instructionsBlock.data.head? = some nl from rfl] at hch
    cases hch
    decide
  have hblockA : ∀ ch, additionalInfoBlock.data.head? = some ch → ch ∉ mainContentPh.data := by
    intro ch hch
    simp only [show additionalInfoBlock.data.head? = some nl from rfl] at hch
    cases hch
    decide
  unfold applyChangeStep
  split_ifs <;>
    first
      | exact h
      | exact strContains_append_false h (by decide) hblockI
      | exact strContains_append_false h (by decide) hblockA
      | (rw [pyReplace_of_not_contains st.1 mainContentPh clarityNote h]; exact h)

theorem step_establishes_adjustment (st : String × List String) (c : Change)
    (hc : c.type = "content_adjustment") :
    strContains (applyChangeStep st c).1 "## Instructions" = true := by
  unfold applyChangeStep
  rw [if_pos hc]
  split_ifs with hg
  · exact hg
  · exact strContains_append_of_right st.1 (by decide)

theorem step_establishes_clarity (st : String × List String) (c : Change)
    (hc : c.type = "clarity_improvement") :
    strContains (applyChangeStep st c).1 "clear and concise" = true ∨
      strContains (applyChangeStep st c).1 mainContentPh = false := by
  unfold applyChangeStep
  have hc' : ¬ c.type = "content_adjustment" := by simp [hc]
  rw [if_neg hc', if_pos hc]
  split_ifs with hg
  · exact Or.inl hg
  · by_cases hp : strContains st.1 mainContentPh = true
    · left
      exact strContains_pyReplace_of_contains_rep (by decide) hp (by decide)
    · right
      rw [Bool.not_eq_true] at hp
      rw [pyReplace_of_not_contains st.1 mainContentPh clarityNote hp]
      exact hp

theorem step_establishes_addition (st : String × List String) (c : Change)
    (hc : c.type = "content_addition") :
    strContains (applyChangeStep st c).1 "## Additional Information" = true := by
  unfold applyChangeStep
  have h1 : ¬ c.type = "content_adjustment" := by simp [hc]
  have h2 : ¬ c.type = "clarity_improvement" := by simp [hc]
  rw [if_neg h1, if_neg h2, if_pos hc]
  split_ifs with hg hv
  · exact hg
  · exact strContains_append_of_right st.1 (by decide)
  · exact strContains_append_of_right st.1 (by decide)

theorem step_fixed (st : String × List String) (c : Change)
    (hadj : c.type = "content_adjustment" → strContains st.1 "## Instructions" = true)
    (hcl : c.type = "clarity_improvement" →
      strContains st.1 "clear and concise" = true ∨
      strContains st.1 mainContentPh = false)
    (hadd : c.type = "content_addition" →
      strContains st.1 "## Additional Information" = true) :
    applyChangeStep st c = st := by
  unfold applyChangeStep
  split_ifs with h1 h2 h3 h4 h5 h6 h7 <;> try rfl
  · exact absurd (hadj h1) h2
  · rcases hcl h3 with hg | hp
    · exact absurd hg h4
    · rw [pyReplace_of_not_contains st.1 mainContentPh clarityNote hp]
  · exact absurd (hadd h5) h6
  · exact absurd (hadd h5) h6

theorem foldl_step_preserves_instructions (cs : List Change)
    (st : String × List String)
    (h : strContains st.1 "## Instructions" = true) :
    strContains (cs.foldl applyChangeStep st).1 "## Instructions" = true := by
  induction cs generalizing st with
  | nil => exact h
  | cons c rest ih => exact ih _ (step_preserves_instructions st c h)

theorem foldl_step_preserves_additional (cs : List Change)
    (st : String × List String)
    (h : strContains st.1 "## Additional Information" = true) :
    strContains (cs.foldl applyChangeStep st).1 "## Additional Information" = true := by
  induction cs generalizing st with
  | nil => exact h
  | cons c rest ih => exact ih _ (step_preserves_additional st c h)

theorem foldl_step_preserves_clarityInv (cs : List Change)
    (st : String × List String)
    (h : strContains st.1 "clear and concise" = true ∨
      strContains st.1 mainContentPh = false) :
    strContains (cs.foldl applyChangeStep st).1 "clear and concise" = true ∨
      strContains (cs.foldl applyChangeStep st).1 mainContentPh = false := by
  induction cs generalizing st with
  | nil => exact h
  | cons c rest ih =>
    refine ih _ ?_
    rcases h with hg | hp
    · exact Or.inl (step_preserves_clear st c hg)
    · exact Or.inr (step_preserves_no_mainContent st c hp)

theorem foldl_step_fixed_of_mem (cs : List Change) (st : String × List String) :
    ∀ c ∈ cs, applyChangeStep (cs.foldl applyChangeStep st) c =
      cs.foldl applyChangeStep st := by
  induction cs generalizing st with
  | nil => intro c hc; cases hc
  | cons c0 rest ih =>
    intro c hc
    rw [List.foldl_cons]
    rcases List.mem_cons.mp hc with rfl | hmem
    · by_cases h1 : c.type = "content_adjustment"
      · refine step_fixed _ c (fun _ => ?_) (fun hcl => ?_) (fun hadd => ?_)
        · exact foldl_step_preserves_instructions rest _
            (step_establishes_adjustment st c h1)
        · rw [h1] at hcl
          exact absurd hcl (by decide)
        · rw [h1] at hadd
          exact absurd hadd (by decide)
      by_cases h2 : c.type = "clarity_improvement"
      · refine step_fixed _ c (fun hadj => ?_) (fun _ => ?_) (fun hadd => ?_)
        · rw [h2] at hadj
          exact absurd hadj (by decide)
        · exact foldl_step_preserves_clarityInv rest _
            (step_establishes_clarity st c h2)
        · rw [h2] at hadd
          exact absurd hadd (by decide)
      by_cases h3 : c.type = "content_addition"
      · refine step_fixed _ c (fun hadj => ?_) (fun hcl => ?_) (fun _ => ?_)
        · rw [h3] at hadj
          exact absurd hadj (by decide)
        · rw [h3] at hcl
          exact absurd hcl (by decide)
        · exact foldl_step_preserves_additional rest _
            (step_establishes_addition st c h3)
      · exact step_fixed _ c (fun hadj => absurd hadj h1)
          (fun hcl => absurd hcl h2) (fun hadd => absurd hadd h3)
    · exact ih _ c hmem

theorem foldl_step_of_all_fixed (cs : List Change) (st : String × List String)
    (h : ∀ c ∈ cs, applyChangeStep st c = st) :
    cs.foldl applyChangeStep st = st := by
  induction cs with
  | nil => rfl
  | cons c rest ih =>
    rw [List.foldl_cons, h c (List.mem_cons_self c rest)]
    exact ih (fun d hd => h d (List.mem_cons_of_mem c hd))

end TemplateTools

namespace TemplateTools

theorem apply_changes_fixed (u : Template) (cs : List Change)
    (h : cs.foldl applyChangeStep (u.content, u.variables') =
      (u.content, u.variables')) :
    _apply_template_changes u cs = u := by
  unfold _apply_template_changes
  rw [h]

end TemplateTools

/-- C10: applying a list of proposed changes to a template is idempotent —
for every template and every change list, applying the same change list a
second time to the already-patched template leaves the template record
(in particular its content and variables fields) unchanged, because every
content patch (instructions block, clarity note, additional-information
section) is guarded by a check that its text is not already present. -/
theorem apply_template_changes_idempotent (t : Template) (cs : List Change) :
    TemplateTools._apply_template_changes
      (TemplateTools._apply_template_changes t cs) cs =
    TemplateTools._apply_template_changes t cs := by
  apply TemplateTools.apply_changes_fixed
  exact TemplateTools.foldl_step_of_all_fixed cs
    (cs.foldl TemplateTools.applyChangeStep (t.content, t.variables'))
    (TemplateTools.foldl_step_fixed_of_mem cs (t.content, t.variables'))

/-! ## Behavior of update_template_from_feedback on each path -/

namespace TemplateTools

theorem update_unconfirmed_pure (store : Store) (template_id feedback now : String) :
    (update_template_from_feedback store template_id feedback false now).2 = store := by
  unfold update_template_from_feedback
  cases h : load_template store template_id with
  | none => rfl
  | some t => rfl

theorem update_no_changes_pure (store : Store) (template_id feedback now : String)
    (t : Template) (ht : load_template store template_id = some t)
    (hch : _generate_template_changes t (_analyze_feedback feedback) = []) :
    (update_template_from_feedback store template_id feedback true now).2 = store := by
  unfold update_template_from_feedback
  rw [ht]
  simp only [hch]
  rfl

theorem apply_changes_version (t : Template) (cs : List Change) :
    (_apply_template_changes t cs).version = t.version := rfl

theorem update_confirmed_result (store : Store) (template_id feedback now : String)
    (t : Template) (v' : String)
    (ht : load_template store template_id = some t)
    (h1 : _generate_template_changes t (_analyze_feedback feedback) ≠ [])
    (hb : bumpPatch t.version = some v') :
    ∃ t1, load_template
        ((update_template_from_feedback store template_id feedback true now).2)
        template_id = some t1 ∧ t1.version = v' := by
  unfold update_template_from_feedback
  rw [ht]
  have hne : (_generate_template_changes t (_analyze_feedback feedback)).isEmpty = false := by
    simpa using h1
  simp only [hne, Bool.not_true, Bool.not_false, Bool.false_eq_true, if_false,
    if_true, apply_changes_version, hb]
  simp only [save_template]
  refine ⟨_, storeGet_storeSet_self _ _ _, rfl⟩

end TemplateTools

namespace TemplateTools

theorem increment_preserves_version (store : Store) (template_id now j : String)
    (t' : Template)
    (h2 : load_template ((increment_usage_count store template_id now).2) j = some t') :
    ∃ t'', load_template store j = some t'' ∧ t''.version = t'.version := by
  unfold increment_usage_count at h2
  cases h : load_template store template_id with
  | none =>
    rw [h] at h2
    exact ⟨t', h2, rfl⟩
  | some t =>
    rw [h] at h2
    simp only [save_template] at h2
    by_cases hj : j = template_id
    · subst hj
      unfold load_template at h2 ⊢
      rw [storeGet_storeSet_self] at h2
      injection h2 with h3
      subst h3
      exact ⟨t, h, rfl⟩
    · unfold load_template at h2 ⊢
      rw [storeGet_storeSet_other _ _ _ _ hj] at h2
      exact ⟨t', h2, rfl⟩

theorem feedback_score_preserves_version (store : Store) (template_id : String)
    (score : ℚ) (now j : String) (t' : Template)
    (h2 : load_template ((update_feedback_score store template_id score now).2) j = some t') :
    ∃ t'', load_template store j = some t'' ∧ t''.version = t'.version := by
  unfold update_feedback_score at h2
  cases h : load_template store template_id with
  | none =>
    rw [h] at h2
    exact ⟨t', h2, rfl⟩
  | some t =>
    rw [h] at h2
    simp only [save_template] at h2
    by_cases hj : j = template_id
    · subst hj
      unfold load_template at h2 ⊢
      rw [storeGet_storeSet_self] at h2
      injection h2 with h3
      subst h3
      exact ⟨t, h, rfl⟩
    · unfold load_template at h2 ⊢
      rw [storeGet_storeSet_other _ _ _ _ hj] at h2
      exact ⟨t', h2, rfl⟩

theorem render_preserves_version (store : Store) (template_id : String)
    (vars : List (String × String)) (now j : String) (t' : Template)
    (h2 : load_template ((render_template store template_id vars now).2) j = some t') :
    ∃ t'', load_template store j = some t'' ∧ t''.version = t'.version := by
  unfold render_template at h2
  cases h : load_template store template_id with
  | none =>
    rw [h] at h2
    exact ⟨t', h2, rfl⟩
  | some t =>
    rw [h] at h2
    exact increment_preserves_version store template_id now j t' h2

end TemplateTools

/-- C1: a stored template at version 1.0.0 receiving two sequential
confirmed applications of feedback, each producing a non-empty proposal
list, reaches version 1.0.2 through 1.0.1 — each confirmed-and-applied
change increments exactly the patch component — and the store is mutated
in no other situation: an unconfirmed call and a confirmed call with an
empty proposal list leave the store untouched, and the other template
operations (usage counting, feedback scoring, rendering) never change any
template's version. -/
theorem version_two_confirmed_bumps
    (store : Store) (template_id fb1 fb2 now1 now2 : String) (t : Template)
    (ht : TemplateTools.load_template store template_id = some t)
    (hv : t.version = "1.0.0")
    (h1 : TemplateTools._generate_template_changes t
      (TemplateTools._analyze_feedback fb1) ≠ []) :
    (∃ t1, TemplateTools.load_template
        (TemplateTools.update_template_from_feedback store template_id fb1 true now1).2
        template_id = some t1 ∧ t1.version = "1.0.1" ∧
      (TemplateTools._generate_template_changes t1
          (TemplateTools._analyze_feedback fb2) ≠ [] →
        ∃ t2, TemplateTools.load_template
          (TemplateTools.update_template_from_feedback
            (TemplateTools.update_template_from_feedback store template_id fb1 true now1).2
            template_id fb2 true now2).2 template_id = some t2 ∧
          t2.version = "1.0.2")) ∧
    (∀ (s : Store) (i f n : String),
      (TemplateTools.update_template_from_feedback s i f false n).2 = s) ∧
    (∀ (s : Store) (i f n : String) (t' : Template),
      TemplateTools.load_template s i = some t' →
      TemplateTools._generate_template_changes t'
        (TemplateTools._analyze_feedback f) = [] →
      (TemplateTools.update_template_from_feedback s i f true n).2 = s) ∧
    (∀ (s : Store) (i n j : String) (t' : Template),
      TemplateTools.load_template ((TemplateTools.increment_usage_count s i n).2) j =
        some t' →
      ∃ t'', TemplateTools.load_template s j = some t'' ∧ t''.version = t'.version) ∧
    (∀ (s : Store) (i : String) (sc : ℚ) (n j : String) (t' : Template),
      TemplateTools.load_template ((TemplateTools.update_feedback_score s i sc n).2) j =
        some t' →
      ∃ t'', TemplateTools.load_template s j = some t'' ∧ t''.version = t'.version) ∧
    (∀ (s : Store) (i : String) (vs : List (String × String)) (n j : String)
      (t' : Template),
      TemplateTools.load_template ((TemplateTools.render_template s i vs n).2) j =
        some t' →
      ∃ t'', TemplateTools.load_template s j = some t'' ∧ t''.version = t'.version) := by
  refine ⟨?_, TemplateTools.update_unconfirmed_pure,
    fun s i f n t' => TemplateTools.update_no_changes_pure s i f n t',
    fun s i n j t' => TemplateTools.increment_preserves_version s i n j t',
    fun s i sc n j t' => TemplateTools.feedback_score_preserves_version s i sc n j t',
    fun s i vs n j t' => TemplateTools.render_preserves_version s i vs n j t'⟩
  obtain ⟨t1, ht1, hv1⟩ := TemplateTools.update_confirmed_result store template_id fb1
    now1 t "1.0.1" ht h1 (by rw [hv]; decide)
  refine ⟨t1, ht1, hv1, fun h2 => ?_⟩
  obtain ⟨t2, ht2, hv2⟩ := TemplateTools.update_confirmed_result _ template_id fb2
    now2 t1 "1.0.2" ht1 h2 (by rw [hv1]; decide)
  exact ⟨t2, ht2, hv2⟩

/-- Witness for C1 at a concrete store: the fixture template at 1.0.0 and
the feedback "too long" (which proposes a content-length change) reach
1.0.1 and then 1.0.2. -/
theorem version_two_confirmed_bumps_witness :
    ∃ t2, TemplateTools.load_template
      (TemplateTools.update_template_from_feedback
        (TemplateTools.update_template_from_feedback storeFixture "default"
          "too long" true "t1").2
        "default" "too long" true "t2").2 "default" = some t2 ∧
      t2.version = "1.0.2" := by
  obtain ⟨h1, -⟩ := version_two_confirmed_bumps storeFixture "default" "too long"
    "too long" "t1" "t2" tmplFixture rfl rfl (by decide)
  obtain ⟨t1, ht1, hv1, himp⟩ := h1
  refine himp ?_
  unfold TemplateTools._generate_template_changes TemplateTools._analyze_feedback
  decide

/-- C2: the analyze-and-propose path — update_template_from_feedback with
user_confirmation False — persists nothing: called any number of times on
any store it returns the store unchanged, so every stored template's
content, version and feedback history are untouched. -/
theorem analyze_and_propose_no_mutation (store : Store)
    (template_id feedback now : String) (n : ℕ) :
    (fun s => (TemplateTools.update_template_from_feedback s template_id
      feedback false now).2)^[n] store = store := by
  induction n with
  | zero => rfl
  | succ k ih =>
    rw [Function.iterate_succ_apply,
      TemplateTools.update_unconfirmed_pure store template_id feedback now, ih]

/-- C3: with an existing template bound to the id, submitting the empty
string as feedback makes the agent's feedback-analysis tool return status
error with the message naming the missing feedback and no improvement
suggestions, and the tools-layer update (confirmed or not) leaves the
store unmutated. -/
theorem empty_feedback_error_no_mutation (store : Store)
    (template_id generated now : String) (t : Template)
    (ht : TemplateTools.load_template store template_id = some t) :
    (TemplateAgent.analyze_user_feedback store "" template_id generated now).status =
      "error" ∧
    (TemplateAgent.analyze_user_feedback store "" template_id generated now).message =
      "No feedback provided for analysis" ∧
    (TemplateAgent.analyze_user_feedback store "" template_id generated
      now).improvement_suggestions = [] ∧
    (∀ (conf : Bool) (now2 : String),
      (TemplateTools.update_template_from_feedback store template_id "" conf now2).2 =
        store) := by
  refine ⟨rfl, rfl, rfl, ?_⟩
  intro conf now2
  cases conf
  · exact TemplateTools.update_unconfirmed_pure store template_id "" now2
  · exact TemplateTools.update_no_changes_pure store template_id "" now2 t ht rfl

/-- Witness for C3 at the concrete fixture store. -/
theorem empty_feedback_error_no_mutation_witness :
    (TemplateAgent.analyze_user_feedback storeFixture "" "default" "" "t0").status =
      "error" ∧
    (TemplateAgent.analyze_user_feedback storeFixture "" "default" "" "t0").message =
      "No feedback provided for analysis" ∧
    (TemplateAgent.analyze_user_feedback storeFixture "" "default" ""
      "t0").improvement_suggestions = [] ∧
    (TemplateTools.update_template_from_feedback storeFixture "default" "" true
      "t1").2 = storeFixture := by
  obtain ⟨h1, h2, h3, h4⟩ := empty_feedback_error_no_mutation storeFixture
    "default" "" "t0" tmplFixture rfl
  exact ⟨h1, h2, h3, h4 true "t1"⟩

/-! ## Rounding lemmas for the feedback score -/

namespace TemplateTools

theorem pyRound2_of_int (s : ℚ) (h : ∃ z : ℤ, s * 100 = z) : pyRound2 s = s := by
  obtain ⟨z, hz⟩ := h
  unfold pyRound2
  simp only [hz, Int.floor_intCast, sub_self]
  rw [if_pos (by norm_num : (0:ℚ) < 1/2)]
  exact (div_eq_iff (by norm_num : (100:ℚ) ≠ 0)).mpr hz.symm

theorem pyRound2_333 : pyRound2 (333/1000) = 33/100 := by
  unfold pyRound2
  have h2 : (333:ℚ)/1000 * 100 = 333/10 := by norm_num
  have hf : ⌊(333:ℚ)/10⌋ = 33 := by norm_num [Int.floor_eq_iff]
  simp only [h2, hf]
  rw [if_pos (by norm_num : (333:ℚ)/10 - ((33:ℤ):ℚ) < 1/2)]
  norm_num

theorem update_feedback_score_result (store : Store) (template_id now : String)
    (t : Template) (s : ℚ) (ht : load_template store template_id = some t) :
    load_template ((update_feedback_score store template_id s now).2) template_id =
      some { t with
        feedback_score :=
          pyRound2 ((t.feedback_score * t.usage_count + s) / (t.usage_count + 1)),
        id := template_id, updated_at := now } := by
  unfold update_feedback_score
  rw [ht]
  simp only [save_template]
  unfold load_template
  rw [storeGet_storeSet_self]

end TemplateTools

/-- C7 amended: update_feedback_score stores the usage-weighted running
average (old*usage + score)/(usage + 1) with no clamping of the incoming
score into the 0 to 10 range, but rounded to two decimals by Python round;
for a fresh template (usage 0, score 5.0) the stored feedback score is
round2(s), which equals the submitted s exactly when 100*s is an integer —
in particular also for s outside the 0 to 10 range, there being no clamp. -/
theorem update_feedback_score_weighted_average
    (store : Store) (template_id now : String) (t : Template) (s : ℚ)
    (ht : TemplateTools.load_template store template_id = some t) :
    (TemplateTools.load_template
        ((TemplateTools.update_feedback_score store template_id s now).2)
        template_id).map Template.feedback_score =
      some (TemplateTools.pyRound2
        ((t.feedback_score * t.usage_count + s) / (t.usage_count + 1))) ∧
    (t.usage_count = 0 → t.feedback_score = 5 →
      (TemplateTools.load_template
          ((TemplateTools.update_feedback_score store template_id s now).2)
          template_id).map Template.feedback_score =
        some (TemplateTools.pyRound2 s)) ∧
    ((∃ z : ℤ, s * 100 = z) → TemplateTools.pyRound2 s = s) := by
  have hres := TemplateTools.update_feedback_score_result store template_id now t s ht
  refine ⟨by rw [hres]; rfl, ?_, TemplateTools.pyRound2_of_int s⟩
  intro hu hf
  rw [hres]
  have harith : (t.feedback_score * t.usage_count + s) / (t.usage_count + 1) = s := by
    rw [hu, hf]
    push_cast
    ring_nf
  rw [harith]
  rfl

/-- Witness for C7 amended: a fresh fixture template receiving the
unclamped score 15 stores exactly 15. -/
theorem update_feedback_score_weighted_average_witness :
    (TemplateTools.load_template
        ((TemplateTools.update_feedback_score storeFixture "default" 15 "t1").2)
        "default").map Template.feedback_score = some 15 := by
  obtain ⟨-, h2, h3⟩ := update_feedback_score_weighted_average storeFixture "default"
    "t1" tmplFixture 15 rfl
  rw [h2 rfl rfl, h3 ⟨1500, by norm_num⟩]

/-- Counterexample for C7 as stated: a fresh template (usage 0, score 5.0)
receiving the score 0.333 stores 0.33, not 0.333 — update_feedback_score
rounds the running average to two decimals before storing it. -/
theorem update_feedback_score_not_exact :
    (TemplateTools.load_template
        ((TemplateTools.update_feedback_score storeFixture "default" (333/1000)
          "t1").2) "default").map Template.feedback_score = some (33/100) ∧
    (33 : ℚ)/100 ≠ 333/1000 := by
  constructor
  · have hres := TemplateTools.update_feedback_score_result storeFixture "default"
      "t1" tmplFixture (333/1000) rfl
    rw [hres]
    have harith : (tmplFixture.feedback_score * tmplFixture.usage_count + 333/1000) /
        (tmplFixture.usage_count + 1) = 333/1000 := by
      show ((5:ℚ) * ((0:ℕ):ℚ) + 333/1000) / (((0:ℕ):ℚ) + 1) = 333/1000
      push_cast
      ring_nf
    rw [harith, TemplateTools.pyRound2_333]
    rfl
  · norm_num

/-! ## Identity of the cleaning stages on cleaned normal form -/

theorem pairsOk_tail {c : Char} {l : List Char} (h : pairsOk (c :: l) = true) :
    pairsOk l = true := by
  cases l with
  | nil => rfl
  | cons d t => exact (Bool.and_eq_true_iff.mp h).2

theorem pairsOk_head {c d : Char} {l : List Char}
    (h : pairsOk (c :: d :: l) = true) : cleanedPairOk c d = true :=
  (Bool.and_eq_true_iff.mp h).1

theorem cleanedCharOk_space {c : Char} (h : cleanedCharOk c = true)
    (hws : isPySpace c = true) : c = ' ' := by
  unfold cleanedCharOk at h
  rcases Bool.and_eq_true_iff.mp h with ⟨-, h2⟩
  rcases Bool.or_eq_true _ _ |>.mp h2 with h3 | h4
  · rw [hws] at h3
    cases h3
  · exact of_decide_eq_true h4

theorem collapseWsGo_id (l : List Char)
    (hc : ∀ c ∈ l, cleanedCharOk c = true) (hp : pairsOk l = true) :
    collapseWsGo false l = l := by
  induction l with
  | nil => rfl
  | cons c t ih =>
    by_cases hws : isPySpace c = true
    · have hsp : c = ' ' := cleanedCharOk_space (hc c (List.mem_cons_self c t)) hws
      unfold collapseWsGo
      rw [if_pos hws, if_neg (by simp)]
      cases t with
      | nil => rw [hsp]; rfl
      | cons d t' =>
        have hdws : isPySpace d = false := by
          have hpair := pairsOk_head hp
          by_cases h2 : isPySpace d = true
          · exfalso
            unfold cleanedPairOk at hpair
            simp [hws, h2] at hpair
          · simpa using h2
        have hrest : collapseWsGo false (d :: t') = d :: t' :=
          ih (fun e he => hc e (List.mem_cons_of_mem c he)) (pairsOk_tail hp)
        unfold collapseWsGo at hrest ⊢
        rw [if_neg (by simp [hdws])] at hrest ⊢
        rw [hrest, hsp]
    · unfold collapseWsGo
      rw [if_neg hws]
      rw [ih (fun e he => hc e (List.mem_cons_of_mem c he)) (pairsOk_tail hp)]

theorem fixWsRun_of_no_nl (run : List Char) (h : nl ∉ run) : fixWsRun run = run := by
  unfold fixWsRun
  rw [if_neg]
  rw [List.count_eq_zero.mpr h]
  omega

theorem nlNormalizeGo_no_nl (l : List Char) (hnl : nl ∉ l) :
    ∀ pending, nl ∉ pending → nlNormalizeGo pending l = pending.reverse ++ l := by
  induction l with
  | nil =>
    intro pending hpend
    unfold nlNormalizeGo
    rw [fixWsRun_of_no_nl _ (by simpa using hpend)]
    simp
  | cons c t ih =>
    intro pending hpend
    have hct : nl ∉ t := fun hmem => hnl (List.mem_cons_of_mem c hmem)
    unfold nlNormalizeGo
    by_cases hws : isPySpace c = true
    · rw [if_pos hws, ih hct (c :: pending) (by
        intro hmem
        rcases List.mem_cons.mp hmem with rfl | hmem2
        · exact hnl (List.mem_cons_self _ _)
        · exact hpend hmem2)]
      simp
    · rw [if_neg hws, fixWsRun_of_no_nl _ (by simpa using hpend),
        ih hct [] (by simp)]
      simp

theorem no_nl_of_cleanedChars {l : List Char}
    (hc : ∀ c ∈ l, cleanedCharOk c = true) : nl ∉ l := by
  intro hmem
  have := cleanedCharOk_space (hc nl hmem) (by decide)
  cases this

theorem replaceUnicodePunct_id (l : List Char)
    (hc : ∀ c ∈ l, isAllowedChar c = true) : replaceUnicodePunct l = l := by
  induction l with
  | nil => rfl
  | cons c t ih =>
    unfold replaceUnicodePunct at ih ⊢
    simp only [List.flatMap_cons]
    rw [ih (fun e he => hc e (List.mem_cons_of_mem c he))]
    have hall := hc c (List.mem_cons_self c t)
    split_ifs with h1 h2 h3 h4 h5 h6 <;>
      first
        | rfl
        | (subst h1; exact absurd hall (by decide))
        | (subst h2; exact absurd hall (by decide))
        | (subst h3; exact absurd hall (by decide))
        | (subst h4; exact absurd hall (by decide))
        | (subst h5; exact absurd hall (by decide))
        | (subst h6; exact absurd hall (by decide))

theorem collapsePunctRuns_id (l : List Char) (hp : pairsOk l = true) :
    collapsePunctRuns l = l := by
  induction l with
  | nil => rfl
  | cons c t ih =>
    cases t with
    | nil => rfl
    | cons d t' =>
      have hpair := pairsOk_head hp
      unfold cleanedPairOk at hpair
      have hnp : (isSentPunct c && isSentPunct d) = false := by
        by_cases h1 : isSentPunct c = true
        · by_cases h2 : isSentPunct d = true
          · exfalso
            simp [h1, h2] at hpair
          · rw [Bool.not_eq_true] at h2
            simp [h2]
        · rw [Bool.not_eq_true] at h1
          simp [h1]
      unfold collapsePunctRuns
      rw [if_neg (by simp [hnp])]
      rw [ih (pairsOk_tail hp)]

theorem isPunctAfterSpace_of_isSentPunct {c : Char} (h : isSentPunct c = true) :
    isPunctAfterSpace c = true := by
  unfold isSentPunct at h
  simp only [Bool.or_eq_true, decide_eq_true_eq] at h
  rcases h with (h | h) | h <;> subst h <;> decide

theorem rmSpaceBeforePunctGo_id (l : List Char) :
    pairsOk l = true →
    ∀ pending : List Char,
      (pending = [] ∨
        (∃ d t', l = d :: t' ∧ isPySpace d = false ∧ isPunctAfterSpace d = false)) →
      rmSpaceBeforePunctGo pending l = pending.reverse ++ l := by
  induction l with
  | nil =>
    intro _ pending _
    unfold rmSpaceBeforePunctGo
    simp
  | cons c t ih =>
    intro hp pending hpend
    by_cases hws : isPySpace c = true
    · rcases hpend with rfl | ⟨d, t', heq, hdws, -⟩
      · unfold rmSpaceBeforePunctGo
        rw [if_pos hws]
        cases t with
        | nil =>
          unfold rmSpaceBeforePunctGo
          simp
        | cons d t' =>
          have hpair := pairsOk_head hp
          have hdws : isPySpace d = false := by
            by_cases h2 : isPySpace d = true
            · exfalso
              unfold cleanedPairOk at hpair
              simp [hws, h2] at hpair
            · simpa using h2
          have hdp : isPunctAfterSpace d = false := by
            by_cases h2 : isPunctAfterSpace d = true
            · exfalso
              unfold cleanedPairOk at hpair
              simp [hws, h2] at hpair
            · simpa using h2
          rw [ih (pairsOk_tail hp) [c] (Or.inr ⟨d, t', rfl, hdws, hdp⟩)]
          simp
      · injection heq with h1 h2
        subst h1
        rw [hdws] at hws
        cases hws
    · by_cases hpunct : isPunctAfterSpace c = true
      · rcases hpend with rfl | ⟨d, t', heq, -, hdp⟩
        · unfold rmSpaceBeforePunctGo
          rw [if_neg (by simp [hws]), if_pos hpunct]
          rw [ih (pairsOk_tail hp) [] (Or.inl rfl)]
          simp
        · injection heq with h1 h2
          subst h1
          rw [hdp] at hpunct
          cases hpunct
      · unfold rmSpaceBeforePunctGo
        rw [if_neg (by simp [hws]), if_neg (by simp [hpunct])]
        rw [ih (pairsOk_tail hp) [] (Or.inl rfl)]
        simp

theorem fixSentenceSpacingGo_id (l : List Char)
    (hc : ∀ c ∈ l, cleanedCharOk c = true) (hp : pairsOk l = true) :
    fixSentenceSpacingGo none l = l := by
  have main : ∀ n l, l.length ≤ n → (∀ c ∈ l, cleanedCharOk c = true) →
      pairsOk l = true → fixSentenceSpacingGo none l = l := by
    intro n
    induction n with
    | zero =>
      intro l hl _ _
      rw [List.length_eq_zero.mp (Nat.le_zero.mp hl)]
      rfl
    | succ n ih =>
      intro l hl hc hp
      match l with
      | [] => rfl
      | c :: t =>
        by_cases hsc : isSentPunct c = true
        · unfold fixSentenceSpacingGo
          rw [if_pos hsc]
          match t with
          | [] => rfl
          | d :: t' =>
            have hpair := pairsOk_head hp
            have hsd : isSentPunct d = false := by
              by_cases h2 : isSentPunct d = true
              · exfalso
                unfold cleanedPairOk at hpair
                simp [hsc, h2] at hpair
              · simpa using h2
            have hud : isUpperAscii d = false := by
              by_cases h2 : isUpperAscii d = true
              · exfalso
                unfold cleanedPairOk at hpair
                simp [hsc, h2] at hpair
              · simpa using h2
            by_cases hwd : isPySpace d = true
            · have hd' : d = ' ' :=
                cleanedCharOk_space
                  (hc d (List.mem_cons_of_mem c (List.mem_cons_self d t'))) hwd
            -- the scanner collects the single whitespace character
              unfold fixSentenceSpacingGo
              rw [if_pos hwd]
              match t' with
              | [] =>
                unfold fixSentenceSpacingGo flushFss
                simp
              | e :: t'' =>
                have hpair2 : cleanedPairOk d e = true :=
                  pairsOk_head (pairsOk_tail hp)
                have hwe : isPySpace e = false := by
                  by_cases h2 : isPySpace e = true
                  · exfalso
                    unfold cleanedPairOk at hpair2
                    simp [hwd, h2] at hpair2
                  · simpa using h2
                have hpe : isPunctAfterSpace e = false := by
                  by_cases h2 : isPunctAfterSpace e = true
                  · exfalso
                    unfold cleanedPairOk at hpair2
                    simp [hwd, h2] at hpair2
                  · simpa using h2
                have hse : isSentPunct e = false := by
                  by_cases h2 : isSentPunct e = true
                  · rw [isPunctAfterSpace_of_isSentPunct h2] at hpe
                    cases hpe
                  · simpa using h2
                have hrest : fixSentenceSpacingGo none (e :: t'') = e :: t'' := by
                  refine ih (e :: t'') ?_ ?_ ?_
                  · simp only [List.length_cons] at hl ⊢
                    omega
                  · intro x hx
                    exact hc x (List.mem_cons_of_mem c (List.mem_cons_of_mem d hx))
                  · exact pairsOk_tail (pairsOk_tail hp)
                unfold fixSentenceSpacingGo
                rw [if_neg (by simp [hwe])]
                by_cases hue : isUpperAscii e = true
                · rw [if_pos hue]
                  have ht'' : fixSentenceSpacingGo none t'' = t'' := by
                    refine ih t'' ?_ ?_ ?_
                    · simp only [List.length_cons] at hl ⊢
                      omega
                    · intro x hx
                      exact hc x (List.mem_cons_of_mem c (List.mem_cons_of_mem d
                        (List.mem_cons_of_mem e hx)))
                    · exact pairsOk_tail (pairsOk_tail (pairsOk_tail hp))
                  rw [ht'', hd']
                · rw [if_neg hue]
                  unfold fixSentenceSpacingGo at hrest
                  rw [if_neg (by simp [hse])] at hrest ⊢
                  rw [hrest]
                  simp
            · have hrest : fixSentenceSpacingGo none (d :: t') = d :: t' := by
                refine ih (d :: t') ?_ ?_ ?_
                · simp only [List.length_cons] at hl ⊢
                  omega
                · intro x hx
                  exact hc x (List.mem_cons_of_mem c hx)
                · exact pairsOk_tail hp
              unfold fixSentenceSpacingGo
              rw [if_neg (by simp [hwd]), if_neg (by simp [hud])]
              unfold fixSentenceSpacingGo at hrest
              rw [if_neg (by simp [hsd])] at hrest ⊢
              rw [hrest]
              simp
        · unfold fixSentenceSpacingGo
          rw [if_neg (by simp [hsc])]
          rw [ih t (by simp only [List.length_cons] at hl; omega)
            (fun x hx => hc x (List.mem_cons_of_mem c hx)) (pairsOk_tail hp)]
  exact main l.length l (Nat.le_refl _) hc hp

theorem pyStripChars_id (l : List Char)
    (hhead : ∀ c, l.head? = some c → isPySpace c = false)
    (hlast : ∀ c, l.getLast? = some c → isPySpace c = false) :
    pyStripChars l = l := by
  unfold pyStripChars
  have h1 : l.dropWhile isPySpace = l := by
    cases l with
    | nil => rfl
    | cons c t =>
      rw [List.dropWhile_cons, if_neg (by simp [hhead c rfl])]
  rw [h1]
  have h2 : l.reverse.dropWhile isPySpace = l.reverse := by
    cases hr : l.reverse with
    | nil => rfl
    | cons c t =>
      have : l.getLast? = some c := by
        rw [← List.head?_reverse, hr]
        rfl
      rw [List.dropWhile_cons, if_neg (by simp [hlast c this])]
  rw [h2, List.reverse_reverse]

theorem cleanChars_id (l : List Char) (h : cleanedStr l = true) : cleanChars l = l := by
  have hall : ∀ c ∈ l, cleanedCharOk c = true := by
    have h1 := (Bool.and_eq_true_iff.mp h).1
    have h2 := (Bool.and_eq_true_iff.mp h1).1
    have h3 := (Bool.and_eq_true_iff.mp h2).1
    exact List.all_eq_true.mp h3
  have hp : pairsOk l = true := by
    have h1 := (Bool.and_eq_true_iff.mp h).1
    have h2 := (Bool.and_eq_true_iff.mp h1).1
    exact (Bool.and_eq_true_iff.mp h2).2
  have hhead : ∀ c, l.head? = some c → isPySpace c = false := by
    intro c hc
    have h1 := (Bool.and_eq_true_iff.mp h).1
    have h2 := (Bool.and_eq_true_iff.mp h1).2
    rw [hc] at h2
    simpa using h2
  have hlast : ∀ c, l.getLast? = some c → isPySpace c = false := by
    intro c hc
    have h1 := (Bool.and_eq_true_iff.mp h).2
    rw [hc] at h1
    simpa using h1
  have hallowed : ∀ c ∈ l, isAllowedChar c = true :=
    fun c hc => (Bool.and_eq_true_iff.mp (hall c hc)).1
  unfold cleanChars
  unfold collapseWs
  rw [collapseWsGo_id l hall hp]
  unfold nlNormalize
  rw [nlNormalizeGo_no_nl l (no_nl_of_cleanedChars hall) [] (by simp), List.reverse_nil,
    List.nil_append]
  rw [replaceUnicodePunct_id l hallowed]
  unfold filterAllowed
  rw [List.filter_eq_self.mpr hallowed]
  rw [collapsePunctRuns_id l hp]
  unfold rmSpaceBeforePunct
  rw [rmSpaceBeforePunctGo_id l hp [] (Or.inl rfl), List.reverse_nil, List.nil_append]
  unfold fixSentenceSpacing
  rw [fixSentenceSpacingGo_id l hall hp]
  exact pyStripChars_id l hhead hlast

/-- C4 amended: clean is not idempotent in general (removing a space
before punctuation can create a repeated-punctuation run that only a
second pass collapses); however every string already in cleaned normal
form — single plain spaces, only allowed characters, no repeated [.!?],
no whitespace before punctuation, no [.!?] directly before a capital, no
leading or trailing whitespace — is a fixed point of clean, and clean is
therefore idempotent on such strings. -/
theorem clean_fixes_cleaned (x : String) (h : cleanedStr x.data = true) :
    clean_content x = x ∧
    clean_content (clean_content x) = clean_content x := by
  have hfix : clean_content x = x := by
    unfold clean_content
    split_ifs with he
    · exact he.symm
    · rw [cleanChars_id x.data h]
  exact ⟨hfix, by rw [hfix]; exact hfix⟩

/-- Witness for C4 amended at a concrete cleaned string. -/
theorem clean_fixes_cleaned_witness :
    cleanedStr "Hello world. Nice day.".data = true ∧
    clean_content "Hello world. Nice day." = "Hello world. Nice day." := by
  refine ⟨by decide, ?_⟩
  exact (clean_fixes_cleaned "Hello world. Nice day." (by decide)).1

/-- Counterexample for C4 as stated: clean is not idempotent.  On the
input of a period, a space and a period, the space before punctuation is
removed giving two adjacent periods, which a second clean collapses. -/
theorem clean_not_idempotent :
    clean_content (clean_content ". .") ≠ clean_content ". ." ∧
    clean_content ". ." = ".." ∧
    clean_content (clean_content ". .") = "." := by decide

/-- C5 amended: the fingerprint is a deterministic pure function of the
cleaned text — equal cleaned texts give equal digests — and
fingerprint(clean x) equals fingerprint(x) exactly on inputs where
cleaning is stable (clean (clean x) = clean x); it fails on inputs where
a second clean still changes the text. -/
theorem fingerprint_of_cleaned_stable (x y : String)
    (hst : clean_content (clean_content x) = clean_content x)
    (hxy : clean_content x = clean_content y) :
    generate_content_hash (clean_content x) = generate_content_hash x ∧
    generate_content_hash x = generate_content_hash y := by
  unfold generate_content_hash hashInput
  constructor
  · rw [hst]
  · rw [hxy]

/-- Witness for C5 amended: two inputs with the same cleaned text have the
same digest, and on the clean-stable input the fingerprint is invariant
under cleaning. -/
theorem fingerprint_of_cleaned_stable_witness :
    clean_content (clean_content "Hello  world.") = clean_content "Hello  world." ∧
    clean_content "Hello  world." = clean_content "Hello world." ∧
    generate_content_hash (clean_content "Hello  world.") =
      generate_content_hash "Hello  world." ∧
    generate_content_hash "Hello  world." = generate_content_hash "Hello world." := by
  have h := fingerprint_of_cleaned_stable "Hello  world." "Hello world."
    (by decide) (by decide)
  exact ⟨by decide, by decide, h.1, h.2⟩

/-- Counterexample for C5 as stated: hashing a text and hashing its
cleaned form produce different digests when cleaning is unstable — the
strings fed to SHA-256 differ, so the digests differ (SHA-256 being a
function, and the two preimages unequal). -/
theorem fingerprint_not_invariant_under_clean :
    generate_content_hash (clean_content ". .") ≠ generate_content_hash ". ." ∧
    hashInput ". ." = ".." ∧
    hashInput (clean_content ". .") = "." := by decide

/-! ## Greedy characterization of the summary loop -/

theorem summaryGo_spec (max_length sentences : Nat) :
    ∀ (sl : List (List Char)) (summary : List Char) (cnt : Nat),
      ∃ k, summaryGo max_length sentences sl summary cnt =
          summary ++ ((sl.take k).map (fun s => s ++ ['.', ' '])).flatten ∧
        (cnt + k ≤ sentences ∨ k = 0) ∧
        (k = 0 ∨ summary.length +
          ((sl.take k).map (fun s => s.length + 2)).sum ≤ max_length) ∧
        (∀ j, j ≤ sl.length → cnt + j ≤ sentences →
          summary.length + ((sl.take j).map (fun s => s.length + 2)).sum ≤ max_length →
          j ≤ k) := by
  intro sl
  induction sl with
  | nil =>
    intro summary cnt
    refine ⟨0, by simp [summaryGo], Or.inr rfl, Or.inl rfl, ?_⟩
    intro j hj _ _
    simpa using hj
  | cons s rest ih =>
    intro summary cnt
    by_cases hcnt : sentences ≤ cnt
    · refine ⟨0, ?_, Or.inr rfl, Or.inl rfl, ?_⟩
      · simp [summaryGo, hcnt]
      · intro j _ hj _
        omega
    · by_cases hfit : (summary ++ s ++ ['.', ' ']).length ≤ max_length
      · obtain ⟨k', hk', hcount', hlen', hmax'⟩ := ih (summary ++ s ++ ['.', ' ']) (cnt + 1)
        have hstep : summaryGo max_length sentences (s :: rest) summary cnt =
            summaryGo max_length sentences rest (summary ++ s ++ ['.', ' ']) (cnt + 1) := by
          simp only [summaryGo]
          rw [if_neg hcnt, if_pos hfit]
        refine ⟨k' + 1, ?_, ?_, ?_, ?_⟩
        · rw [hstep, hk']
          simp [List.take_succ_cons, List.append_assoc]
        · left
          rcases hcount' with h | h
          · omega
          · omega
        · right
          simp only [List.take_succ_cons, List.map_cons, List.sum_cons]
          rcases hlen' with h | h
          · subst h
            simp only [List.take_zero, List.map_nil, List.sum_nil, Nat.add_zero]
            have hfit' := hfit
            simp only [List.length_append, List.length_cons, List.length_nil] at hfit'
            omega
          · simp only [List.length_append, List.length_cons, List.length_nil] at h
            omega
        · intro j hj hjs hjlen
          cases j with
          | zero => omega
          | succ j' =>
            have hj' := hmax' j' (by simpa using hj) (by omega) (by
              simp only [List.take_succ_cons, List.map_cons, List.sum_cons] at hjlen
              simp only [List.length_append, List.length_cons, List.length_nil]
              omega)
            omega
      · refine ⟨0, ?_, Or.inr rfl, Or.inl rfl, ?_⟩
        · simp only [summaryGo, List.take_zero, List.map_nil, List.flatten_nil,
            List.append_nil]
          rw [if_neg hcnt, if_neg hfit]
        · intro j hj hjs hjlen
          cases j with
          | zero => omega
          | succ j' =>
            exfalso
            simp only [List.take_succ_cons, List.map_cons, List.sum_cons] at hjlen
            simp only [List.length_append, List.length_cons, List.length_nil,
              not_le] at hfit
            omega

/-- C9: generate_summary greedily appends sentences (split on runs of
[.!?], stripped, empties dropped) while both the sentence budget and the
character budget hold, but when no sentence fits the character budget it
returns the empty string: the truncation expression content[:max_length]
+ "..." sits only in the unreachable except branch.  The result is the
stripped concatenation of a greedy-maximal prefix of the sentence list,
each sentence suffixed with ". ". -/
theorem generate_summary_greedy (content : String) (max_length sentences : Nat)
    (hne : content ≠ "") :
    ∃ k, generate_summary content max_length sentences =
        pyStrip ⟨(((sentencesOf content).take k).map (fun s => s ++ ['.', ' '])).flatten⟩ ∧
      k ≤ sentences ∧
      (k = 0 ∨ (((sentencesOf content).take k).map (fun s => s.length + 2)).sum ≤ max_length) ∧
      (∀ j, j ≤ (sentencesOf content).length → j ≤ sentences →
        (((sentencesOf content).take j).map (fun s => s.length + 2)).sum ≤ max_length →
        j ≤ k) ∧
      (k = 0 → generate_summary content max_length sentences = "") := by
  by_cases hemp : (sentencesOf content).isEmpty = true
  · have hnil : sentencesOf content = [] := by
      simpa [List.isEmpty_iff] using hemp
    refine ⟨0, ?_, Nat.zero_le _, Or.inl rfl, ?_, ?_⟩
    · simp only [generate_summary, if_neg hne]
      rw [if_pos hemp, hnil]
      rfl
    · intro j hj _ _
      rw [hnil] at hj
      simpa using hj
    · intro _
      simp only [generate_summary, if_neg hne]
      rw [if_pos hemp]
  · obtain ⟨k, hk, hcount, hlen, hmax⟩ :=
      summaryGo_spec max_length sentences (sentencesOf content) [] 0
    refine ⟨k, ?_, ?_, ?_, ?_, ?_⟩
    · simp only [generate_summary, if_neg hne]
      rw [if_neg hemp, hk]
      rfl
    · rcases hcount with h | h
      · omega
      · omega
    · rcases hlen with h | h
      · exact Or.inl h
      · right
        simpa using h
    · intro j hj1 hj2 hj3
      exact hmax j hj1 (by omega) (by simpa using hj3)
    · intro hk0
      subst hk0
      simp only [generate_summary, if_neg hne]
      rw [if_neg hemp, hk]
      rfl

/-- C9 counterexample: with content "abcdefghij." (length 11), max_length 5
and sentences 3 the single sentence "abcdefghij" does not fit the character
budget, and generate_summary returns "" rather than the claimed truncation
of the text to max_length (neither "abcde" nor "abcde..."). -/
theorem generate_summary_no_truncation :
    generate_summary "abcdefghij." 5 3 = "" ∧
    5 < "abcdefghij.".length ∧
    generate_summary "abcdefghij." 5 3 ≠ "abcde..." ∧
    generate_summary "abcdefghij." 5 3 ≠ "abcde" := by
  decide

/-- Witness for C9 at concrete input: the greedy characterization pins the
summary of "Hi. There you are. And more stuff here." with budgets 20 and 3
to exactly the first two sentences. -/
theorem generate_summary_greedy_witness :
    generate_summary "Hi. There you are. And more stuff here." 20 3 =
      "Hi. There you are." := by
  obtain ⟨k, h1, h2, h3, h4, h5⟩ :=
    generate_summary_greedy "Hi. There you are. And more stuff here." 20 3 (by decide)
  have hk2 : 2 ≤ k := h4 2 (by decide) (by decide) (by decide)
  have hk3 : k ≠ 3 := by
    intro h
    subst h
    rcases h3 with h | h
    · exact absurd h (by decide)
    · exact absurd h (by decide)
  have hk : k = 2 := by omega
  subst hk
  rw [h1]
  decide

/-! ## Splitting on the two-newline separator: structural lemmas for
split_into_sections -/

theorem hasPairSub_iff (a b : Char) :
    ∀ l, hasPairSub a b l = true ↔ ∃ u v, l = u ++ a :: b :: v := by
  intro l
  induction l with
  | nil =>
    constructor
    · intro h
      simp [hasPairSub] at h
    · rintro ⟨u, v, h⟩
      exact absurd h (by simp)
  | cons c t ih =>
    cases t with
    | nil =>
      constructor
      · intro h
        simp [hasPairSub] at h
      · rintro ⟨u, v, h⟩
        cases u with
        | nil => simp at h
        | cons e u' => simp at h
    | cons d t' =>
      constructor
      · intro h
        rw [hasPairSub] at h
        rcases Bool.or_eq_true_iff.mp h with h1 | h2
        · have h1' : c = a ∧ d = b := by simpa using h1
          exact ⟨[], t', by simp [h1'.1, h1'.2]⟩
        · obtain ⟨u, v, huv⟩ := ih.mp h2
          exact ⟨c :: u, v, by simp [huv]⟩
      · rintro ⟨u, v, huv⟩
        cases u with
        | nil =>
          simp only [List.nil_append, List.cons.injEq] at huv
          rw [hasPairSub]
          simp [huv.1, huv.2.1]
        | cons e u' =>
          simp only [List.cons_append, List.cons.injEq] at huv
          rw [hasPairSub]
          have := ih.mpr ⟨u', v, huv.2⟩
          simp [this]

theorem hasPairSub_of_infix (a b : Char) (x y : List Char) (hxy : x <:+: y)
    (hy : hasPairSub a b y = false) : hasPairSub a b x = false := by
  by_contra hc
  rw [Bool.not_eq_false] at hc
  obtain ⟨u, v, hx⟩ := (hasPairSub_iff a b x).mp hc
  obtain ⟨s, t, hst⟩ := hxy
  have : hasPairSub a b y = true :=
    (hasPairSub_iff a b y).mpr ⟨s ++ u, v ++ t, by rw [← hst, hx]; simp⟩
  rw [this] at hy
  cases hy

theorem hasPairSub_cons_false (a b c d : Char) (t : List Char)
    (h : hasPairSub a b (c :: d :: t) = false) :
    ¬(c = a ∧ d = b) ∧ hasPairSub a b (d :: t) = false := by
  rw [hasPairSub] at h
  constructor
  · rintro ⟨h1, h2⟩
    subst h1
    subst h2
    simp at h
  · exact (Bool.or_eq_false_iff.mp h).2

theorem splitOnPair_head_prefix (a b : Char) :
    ∀ l p ps, splitOnPair a b l = p :: ps → p <+: l := by
  intro l
  induction l with
  | nil =>
    intro p ps h
    simp only [splitOnPair, List.cons.injEq] at h
    rw [← h.1]
  | cons c t ih =>
    cases t with
    | nil =>
      intro p ps h
      simp only [splitOnPair, List.cons.injEq] at h
      rw [← h.1]
    | cons d t' =>
      intro p ps h
      rw [splitOnPair] at h
      by_cases hg : c = a ∧ d = b
      · rw [if_pos hg] at h
        injection h with h1 h2
        rw [← h1]
        exact List.nil_prefix
      · rw [if_neg hg] at h
        cases hs : splitOnPair a b (d :: t') with
        | nil =>
          rw [hs] at h
          simp only [List.cons.injEq] at h
          rw [← h.1]
          exact ⟨d :: t', rfl⟩
        | cons q qs =>
          rw [hs] at h
          injection h with h1 h2
          obtain ⟨u, hu⟩ := ih q qs hs
          rw [← h1]
          exact ⟨u, by rw [List.cons_append, hu]⟩

theorem splitOnPair_pairFree_aux (a b : Char) :
    ∀ n l, l.length ≤ n → ∀ p, p ∈ splitOnPair a b l → hasPairSub a b p = false := by
  intro n
  induction n with
  | zero =>
    intro l hl p hp
    have hnil : l = [] := List.eq_nil_of_length_eq_zero (Nat.le_zero.mp hl)
    subst hnil
    simp only [splitOnPair, List.mem_singleton] at hp
    subst hp
    rfl
  | succ n ih =>
    intro l hl p hp
    cases l with
    | nil =>
      simp only [splitOnPair, List.mem_singleton] at hp
      subst hp
      rfl
    | cons c t =>
      cases t with
      | nil =>
        simp only [splitOnPair, List.mem_singleton] at hp
        subst hp
        rfl
      | cons d t' =>
        rw [splitOnPair] at hp
        by_cases hg : c = a ∧ d = b
        · rw [if_pos hg] at hp
          rcases List.mem_cons.mp hp with h | h
          · subst h
            rfl
          · exact ih t' (by simp only [List.length_cons] at hl; omega) p h
        · rw [if_neg hg] at hp
          cases hs : splitOnPair a b (d :: t') with
          | nil =>
            rw [hs] at hp
            simp only [List.mem_singleton] at hp
            subst hp
            rfl
          | cons q qs =>
            rw [hs] at hp
            rcases List.mem_cons.mp hp with h | h
            · subst h
              have hq : hasPairSub a b q = false :=
                ih (d :: t') (by simp only [List.length_cons] at hl ⊢; omega) q
                  (by rw [hs]; exact List.mem_cons_self _ _)
              have hqp : q <+: d :: t' := splitOnPair_head_prefix a b (d :: t') q qs hs
              cases hq' : q with
              | nil => rfl
              | cons e q' =>
                have hed : e = d := by
                  obtain ⟨u, hu⟩ := hqp
                  rw [hq'] at hu
                  injection hu with h1 h2
                rw [hq'] at hq
                rw [hasPairSub]
                have hcd : (decide (c = a) && decide (e = b)) = false := by
                  rw [hed]
                  by_cases hca : c = a
                  · by_cases hdb : d = b
                    · exact absurd ⟨hca, hdb⟩ hg
                    · simp [hdb]
                  · simp [hca]
                rw [hcd, hq]
                rfl
            · exact ih (d :: t') (by simp only [List.length_cons] at hl ⊢; omega) p
                (by rw [hs]; exact List.mem_cons_of_mem _ h)

theorem splitOnPair_pairFree (a b : Char) (l p : List Char)
    (hp : p ∈ splitOnPair a b l) : hasPairSub a b p = false :=
  splitOnPair_pairFree_aux a b l.length l (Nat.le_refl _) p hp

theorem pyStripChars_prefix_dropWhile (l : List Char) :
    pyStripChars l <+: l.dropWhile isPySpace := by
  unfold pyStripChars
  have h2 : (l.dropWhile isPySpace).reverse.dropWhile isPySpace
      <:+ (l.dropWhile isPySpace).reverse := List.dropWhile_suffix _
  have h3 := List.reverse_prefix.mpr h2
  simpa [List.reverse_reverse] using h3

theorem pyStripChars_infixOf (l : List Char) : pyStripChars l <:+: l :=
  (pyStripChars_prefix_dropWhile l).isInfix.trans (List.dropWhile_suffix _).isInfix

theorem dropWhile_head_not (p : Char → Bool) :
    ∀ (l : List Char) (c : Char), (l.dropWhile p).head? = some c → p c = false := by
  intro l
  induction l with
  | nil =>
    intro c h
    simp at h
  | cons d t ih =>
    intro c h
    rw [List.dropWhile_cons] at h
    by_cases hd : p d = true
    · rw [if_pos hd] at h
      exact ih c h
    · rw [if_neg hd] at h
      simp only [List.head?_cons, Option.some.injEq] at h
      rw [← h]
      exact Bool.not_eq_true _ |>.mp hd

theorem pyStripChars_head (l : List Char) (c : Char)
    (h : (pyStripChars l).head? = some c) : isPySpace c = false := by
  have h3 := pyStripChars_prefix_dropWhile l
  cases hres : pyStripChars l with
  | nil =>
    rw [hres] at h
    simp at h
  | cons x xs =>
    rw [hres] at h
    simp only [List.head?_cons, Option.some.injEq] at h
    rw [hres] at h3
    obtain ⟨u, hu⟩ := h3
    rw [← h]
    apply dropWhile_head_not isPySpace l
    rw [← hu]
    rfl

theorem pyStripChars_last (l : List Char) (c : Char)
    (h : (pyStripChars l).getLast? = some c) : isPySpace c = false := by
  unfold pyStripChars at h
  rw [← List.head?_reverse, List.reverse_reverse] at h
  exact dropWhile_head_not isPySpace _ c h

theorem paragraphsOf_good (content : String) :
    ∀ p ∈ paragraphsOf content, goodPara p := by
  intro p hp
  unfold paragraphsOf at hp
  rw [List.mem_filter] at hp
  obtain ⟨hmem, hne⟩ := hp
  rw [List.mem_map] at hmem
  obtain ⟨q, hq, rfl⟩ := hmem
  refine ⟨?_, ?_, ?_, ?_⟩
  · intro h
    rw [h] at hne
    simp at hne
  · exact hasPairSub_of_infix nl nl _ q (pyStripChars_infixOf q)
      (splitOnPair_pairFree nl nl content.data q hq)
  · intro c hc
    exact pyStripChars_head q c hc
  · intro c hc
    exact pyStripChars_last q c hc

theorem goodPara_pair_nl (p : List Char) (h : goodPara p) :
    hasPairSub nl nl (p ++ [nl]) = false := by
  obtain ⟨hne, hpf, hh, hl⟩ := h
  by_contra hc
  rw [Bool.not_eq_false] at hc
  obtain ⟨u, v, huv⟩ := (hasPairSub_iff nl nl _).mp hc
  rcases List.eq_nil_or_concat v with rfl | ⟨v', x, hv⟩
  · have h2 : p ++ [nl] = (u ++ [nl]) ++ [nl] := by
      rw [huv]
      simp
    have h3 : p = u ++ [nl] := (List.append_inj' h2 rfl).1
    have hlast : p.getLast? = some nl := by
      rw [h3]
      exact List.getLast?_concat u
    exact absurd (hl nl hlast) (by decide)
  · subst hv
    have h2 : p ++ [nl] = (u ++ nl :: nl :: v') ++ [x] := by
      rw [huv]
      simp [List.concat_eq_append]
    have h3 := (List.append_inj' h2 rfl).1
    have : hasPairSub nl nl p = true := (hasPairSub_iff nl nl p).mpr ⟨u, v', h3⟩
    rw [this] at hpf
    cases hpf

theorem splitOnPair_of_pairFree (a b : Char) :
    ∀ l, hasPairSub a b l = false → splitOnPair a b l = [l] := by
  intro l
  induction l with
  | nil => intro h; rfl
  | cons c t ih =>
    cases t with
    | nil => intro h; rfl
    | cons d t' =>
      intro h
      have hd := hasPairSub_cons_false a b c d t' h
      rw [splitOnPair, if_neg hd.1]
      rw [ih hd.2]

theorem splitOnPair_append_pair (a b : Char) :
    ∀ p r, hasPairSub a b (p ++ [a]) = false →
      splitOnPair a b (p ++ a :: b :: r) = p :: splitOnPair a b r := by
  intro p
  induction p with
  | nil =>
    intro r h
    simp only [List.nil_append]
    rw [splitOnPair, if_pos ⟨rfl, rfl⟩]
  | cons c p' ih =>
    intro r h
    cases p' with
    | nil =>
      simp only [List.cons_append, List.nil_append]
      rw [splitOnPair]
      have hg : ¬(c = a ∧ a = b) := by
        rintro ⟨h1, h2⟩
        simp only [List.cons_append, List.nil_append] at h
        simp [hasPairSub, h1, h2] at h
      rw [if_neg hg]
      have hrec : splitOnPair a b (a :: b :: r) = [] :: splitOnPair a b r := by
        rw [splitOnPair, if_pos ⟨rfl, rfl⟩]
      rw [hrec]
    | cons e p'' =>
      simp only [List.cons_append]
      have h' : hasPairSub a b (c :: e :: (p'' ++ [a])) = false := by
        simpa [List.cons_append] using h
      have hdecomp := hasPairSub_cons_false a b c e (p'' ++ [a]) h'
      rw [splitOnPair, if_neg hdecomp.1]
      have hrec := ih r (by simpa [List.cons_append] using hdecomp.2)
      simp only [List.cons_append] at hrec
      rw [hrec]

theorem joinNlNl_ne_nil (q : List Char) (rest : List (List Char)) (hq : q ≠ []) :
    joinNlNl (q :: rest) ≠ [] := by
  cases rest with
  | nil => exact hq
  | cons r rest' =>
    show q ++ nl :: nl :: joinNlNl (r :: rest') ≠ []
    simp

theorem joinNlNl_append_one :
    ∀ (acc : List (List Char)) (p : List Char), acc ≠ [] →
      joinNlNl (acc ++ [p]) = joinNlNl acc ++ nl :: nl :: p := by
  intro acc
  induction acc with
  | nil => intro p h; exact absurd rfl h
  | cons q rest ih =>
    intro p _
    cases rest with
    | nil => rfl
    | cons r rest' =>
      have ihp := ih p (by simp)
      simp only [List.cons_append]
      show q ++ nl :: nl :: joinNlNl ((r :: rest') ++ [p])
          = (q ++ nl :: nl :: joinNlNl (r :: rest')) ++ nl :: nl :: p
      rw [ihp]
      simp [List.append_assoc]

theorem splitOnPair_joinNlNl :
    ∀ acc, acc ≠ [] → (∀ p ∈ acc, goodPara p) →
      splitOnPair nl nl (joinNlNl acc) = acc := by
  intro acc
  induction acc with
  | nil => intro h _; exact absurd rfl h
  | cons p rest ih =>
    intro _ hgood
    cases rest with
    | nil =>
      show splitOnPair nl nl p = [p]
      exact splitOnPair_of_pairFree nl nl p (hgood p (List.mem_cons_self _ _)).2.1
    | cons q rest' =>
      show splitOnPair nl nl (p ++ nl :: nl :: joinNlNl (q :: rest')) = p :: q :: rest'
      rw [splitOnPair_append_pair nl nl p _
        (goodPara_pair_nl p (hgood p (List.mem_cons_self _ _)))]
      rw [ih (by simp) (fun x hx => hgood x (List.mem_cons_of_mem _ hx))]

theorem joinNlNl_head (acc : List (List Char)) (hgood : ∀ p ∈ acc, goodPara p) :
    ∀ c, (joinNlNl acc).head? = some c → isPySpace c = false := by
  cases acc with
  | nil =>
    intro c h
    simp [joinNlNl] at h
  | cons q rest =>
    intro c h
    have hq := hgood q (List.mem_cons_self _ _)
    cases rest with
    | nil => exact hq.2.2.1 c h
    | cons r rest' =>
      have heq : (joinNlNl (q :: r :: rest')).head? = q.head? := by
        show (q ++ nl :: nl :: joinNlNl (r :: rest')).head? = q.head?
        cases hq' : q with
        | nil => exact absurd hq' hq.1
        | cons x xs => rfl
      rw [heq] at h
      exact hq.2.2.1 c h

theorem joinNlNl_last :
    ∀ acc : List (List Char), (∀ p ∈ acc, goodPara p) →
      ∀ c, (joinNlNl acc).getLast? = some c → isPySpace c = false := by
  intro acc
  induction acc with
  | nil =>
    intro _ c h
    simp [joinNlNl] at h
  | cons q rest ih =>
    intro hgood c h
    cases rest with
    | nil => exact (hgood q (List.mem_cons_self _ _)).2.2.2 c h
    | cons r rest' =>
      have hne : joinNlNl (r :: rest') ≠ [] :=
        joinNlNl_ne_nil r rest' (hgood r (by simp)).1
      have heq : (joinNlNl (q :: r :: rest')).getLast? = (joinNlNl (r :: rest')).getLast? := by
        show (q ++ nl :: nl :: joinNlNl (r :: rest')).getLast? = _
        have e1 : q ++ nl :: nl :: joinNlNl (r :: rest')
            = (q ++ [nl, nl]) ++ joinNlNl (r :: rest') := by simp
        rw [e1, List.getLast?_append_of_ne_nil _ hne]
      rw [heq] at h
      exact ih (fun p hp => hgood p (List.mem_cons_of_mem _ hp)) c h

theorem sectionsGo_spec (maxL : Nat) :
    ∀ (ps acc : List (List Char)) (num : Nat),
      (∀ p ∈ ps, goodPara p) → (∀ p ∈ acc, goodPara p) →
      (acc = [] ∨ (joinNlNl acc).length ≤ maxL ∨ ∃ q, acc = [q]) →
      (((sectionsGo maxL ps (joinNlNl acc) num).map
          (fun sec => splitOnPair nl nl sec.content.data)).flatten = acc ++ ps) ∧
      (∀ sec ∈ sectionsGo maxL ps (joinNlNl acc) num,
        sec.content.length ≤ maxL ∨
          (maxL < sec.content.length ∧ sec.content.data ∈ acc ++ ps)) := by
  intro ps
  induction ps with
  | nil =>
    intro acc num hps hacc hinv
    cases acc with
    | nil =>
      constructor
      · simp [sectionsGo, joinNlNl]
      · intro sec hsec
        simp [sectionsGo, joinNlNl] at hsec
    | cons q rest =>
      have hcur_ne : joinNlNl (q :: rest) ≠ [] :=
        joinNlNl_ne_nil q rest (hacc q (List.mem_cons_self _ _)).1
      have hie : (joinNlNl (q :: rest)).isEmpty = false := by
        cases hj : joinNlNl (q :: rest) with
        | nil => exact absurd hj hcur_ne
        | cons x xs => rfl
      have hsec : sectionsGo maxL [] (joinNlNl (q :: rest)) num
          = [mkSectionRec num (joinNlNl (q :: rest))] := by
        simp [sectionsGo, hie]
      have hstrip : pyStripChars (joinNlNl (q :: rest)) = joinNlNl (q :: rest) :=
        pyStripChars_id _ (joinNlNl_head _ hacc) (joinNlNl_last _ hacc)
      have hdata : (mkSectionRec num (joinNlNl (q :: rest))).content.data
          = joinNlNl (q :: rest) := by
        show pyStripChars (joinNlNl (q :: rest)) = joinNlNl (q :: rest)
        exact hstrip
      have hlen : (mkSectionRec num (joinNlNl (q :: rest))).content.length
          = (joinNlNl (q :: rest)).length := by
        show (pyStripChars (joinNlNl (q :: rest))).length = _
        rw [hstrip]
      constructor
      · rw [hsec]
        simp only [List.map_cons, List.map_nil, List.flatten_cons, List.flatten_nil,
          List.append_nil]
        rw [hdata, splitOnPair_joinNlNl (q :: rest) (by simp) hacc]
      · intro sec hsec'
        rw [hsec] at hsec'
        have hseq := List.mem_singleton.mp hsec'
        subst hseq
        rcases hinv with h | h | h
        · exact absurd h (by simp)
        · left
          rw [hlen]
          exact h
        · obtain ⟨q', hq'⟩ := h
          by_cases hl : (mkSectionRec num (joinNlNl (q :: rest))).content.length ≤ maxL
          · exact Or.inl hl
          · right
            refine ⟨Nat.lt_of_not_le hl, ?_⟩
            injection hq' with h1 h2
            subst h1
            subst h2
            rw [hdata]
            simp [joinNlNl]
  | cons p rest ih =>
    intro acc num hps hacc hinv
    have hpgood : goodPara p := hps p (List.mem_cons_self _ _)
    have hrest : ∀ x ∈ rest, goodPara x := fun x hx => hps x (List.mem_cons_of_mem _ hx)
    have hpot : (if (joinNlNl acc).isEmpty then p else joinNlNl acc ++ [nl, nl] ++ p)
        = joinNlNl (acc ++ [p]) := by
      cases acc with
      | nil => simp [joinNlNl]
      | cons q rest' =>
        have hne := joinNlNl_ne_nil q rest' (hacc q (List.mem_cons_self _ _)).1
        have hie : (joinNlNl (q :: rest')).isEmpty = false := by
          cases hj : joinNlNl (q :: rest') with
          | nil => exact absurd hj hne
          | cons x xs => rfl
        rw [hie, if_neg (by simp), joinNlNl_append_one (q :: rest') p (by simp)]
        simp
    by_cases hfits : (joinNlNl (acc ++ [p])).length ≤ maxL
    · have hstep : sectionsGo maxL (p :: rest) (joinNlNl acc) num
          = sectionsGo maxL rest (joinNlNl (acc ++ [p])) num := by
        simp only [sectionsGo]
        rw [hpot, if_pos hfits]
      have haccp : ∀ x ∈ acc ++ [p], goodPara x := by
        intro x hx
        rcases List.mem_append.mp hx with h | h
        · exact hacc x h
        · rw [List.mem_singleton.mp h]
          exact hpgood
      have hind := ih (acc ++ [p]) num hrest haccp (Or.inr (Or.inl hfits))
      constructor
      · rw [hstep, hind.1]
        simp
      · intro sec hsec'
        rw [hstep] at hsec'
        rcases hind.2 sec hsec' with h | h
        · exact Or.inl h
        · right
          refine ⟨h.1, ?_⟩
          have := h.2
          simpa using this
    · by_cases haccnil : acc = []
      · subst haccnil
        have hstep : sectionsGo maxL (p :: rest) (joinNlNl ([] : List (List Char))) num
            = sectionsGo maxL rest (joinNlNl [p]) num := by
          simp only [sectionsGo]
          rw [hpot, if_neg hfits]
          simp [joinNlNl]
        have hind := ih [p] num hrest
          (by intro x hx; rw [List.mem_singleton.mp hx]; exact hpgood)
          (Or.inr (Or.inr ⟨p, rfl⟩))
        constructor
        · rw [hstep, hind.1]
          simp
        · intro sec hsec'
          rw [hstep] at hsec'
          rcases hind.2 sec hsec' with h | h
          · exact Or.inl h
          · right
            refine ⟨h.1, ?_⟩
            have := h.2
            simpa using this
      · obtain ⟨q, rest', rfl⟩ : ∃ q rest', acc = q :: rest' := by
          cases acc with
          | nil => exact absurd rfl haccnil
          | cons q r => exact ⟨q, r, rfl⟩
        have hne := joinNlNl_ne_nil q rest' (hacc q (List.mem_cons_self _ _)).1
        have hie : (joinNlNl (q :: rest')).isEmpty = false := by
          cases hj : joinNlNl (q :: rest') with
          | nil => exact absurd hj hne
          | cons x xs => rfl
        have hstep : sectionsGo maxL (p :: rest) (joinNlNl (q :: rest')) num
            = mkSectionRec num (joinNlNl (q :: rest'))
              :: sectionsGo maxL rest (joinNlNl [p]) (num + 1) := by
          simp only [sectionsGo]
          rw [hpot, if_neg hfits, if_pos (by rw [hie]; rfl)]
          rfl
        have hstrip : pyStripChars (joinNlNl (q :: rest')) = joinNlNl (q :: rest') :=
          pyStripChars_id _ (joinNlNl_head _ hacc) (joinNlNl_last _ hacc)
        have hdata : (mkSectionRec num (joinNlNl (q :: rest'))).content.data
            = joinNlNl (q :: rest') := by
          show pyStripChars (joinNlNl (q :: rest')) = joinNlNl (q :: rest')
          exact hstrip
        have hlen : (mkSectionRec num (joinNlNl (q :: rest'))).content.length
            = (joinNlNl (q :: rest')).length := by
          show (pyStripChars (joinNlNl (q :: rest'))).length = _
          rw [hstrip]
        have hind := ih [p] (num + 1) hrest
          (by intro x hx; rw [List.mem_singleton.mp hx]; exact hpgood)
          (Or.inr (Or.inr ⟨p, rfl⟩))
        constructor
        · rw [hstep]
          simp only [List.map_cons, List.flatten_cons]
          rw [hind.1, hdata, splitOnPair_joinNlNl (q :: rest') (by simp) hacc]
          simp
        · intro sec hsec'
          rw [hstep] at hsec'
          rcases List.mem_cons.mp hsec' with h | h
          · subst h
            rcases hinv with h | h | h
            · exact absurd h (by simp)
            · left
              rw [hlen]
              exact h
            · obtain ⟨q', hq'⟩ := h
              by_cases hl : (mkSectionRec num (joinNlNl (q :: rest'))).content.length ≤ maxL
              · exact Or.inl hl
              · right
                refine ⟨Nat.lt_of_not_le hl, ?_⟩
                injection hq' with h1 h2
                subst h1
                subst h2
                rw [hdata]
                simp [joinNlNl]
          · rcases hind.2 sec h with h' | h'
            · exact Or.inl h'
            · right
              refine ⟨h'.1, ?_⟩
              have := h'.2
              simp only [List.singleton_append] at this
              exact List.mem_append.mpr (Or.inr this)

/-- C8: split_into_sections packs whole paragraphs greedily: splitting each
returned section's content back on the two-newline separator and
concatenating in order reproduces the original paragraph sequence
(paragraphs are never split), and every returned section's content fits in
max_section_length except a section that is a single original paragraph
longer than the limit. -/
theorem split_into_sections_spec (content : String) (max_section_length : Nat) :
    (((split_into_sections content max_section_length).map
        (fun sec => splitOnPair nl nl sec.content.data)).flatten
      = paragraphsOf content) ∧
    (∀ sec ∈ split_into_sections content max_section_length,
      sec.content.length ≤ max_section_length ∨
        (max_section_length < sec.content.length ∧
          sec.content.data ∈ paragraphsOf content)) := by
  unfold split_into_sections
  by_cases hc : content = ""
  · rw [if_pos hc]
    subst hc
    constructor
    · decide
    · intro sec hsec
      simp at hsec
  · rw [if_neg hc]
    have h := sectionsGo_spec max_section_length (paragraphsOf content) [] 1
      (paragraphsOf_good content) (by intro p hp; simp at hp) (Or.inl rfl)
    have hj : joinNlNl ([] : List (List Char)) = [] := rfl
    rw [hj] at h
    constructor
    · rw [h.1]
      simp
    · intro sec hs
      rcases h.2 sec hs with h' | h'
      · exact Or.inl h'
      · right
        refine ⟨h'.1, ?_⟩
        have := h'.2
        simpa using this

/-- Witness for C8 at a concrete input: with paragraphs "aaa", "bb" and the
oversized "ccccccccc" and limit 8 the first two paragraphs pack into one
section, the sections split back to the original paragraph sequence, and
the oversized section is a single original paragraph over the limit. -/
theorem split_into_sections_spec_witness :
    (((split_into_sections "aaa\n\nbb\n\nccccccccc" 8).map
        (fun sec => splitOnPair nl nl sec.content.data)).flatten
      = paragraphsOf "aaa\n\nbb\n\nccccccccc") ∧
    (8 < (mkSectionRec 2 "ccccccccc".data).content.length ∧
      (mkSectionRec 2 "ccccccccc".data).content.data
        ∈ paragraphsOf "aaa\n\nbb\n\nccccccccc") := by
  refine ⟨(split_into_sections_spec "aaa\n\nbb\n\nccccccccc" 8).1, ?_⟩
  have h := (split_into_sections_spec "aaa\n\nbb\n\nccccccccc" 8).2
    (mkSectionRec 2 "ccccccccc".data) (by decide)
  rcases h with h | h
  · exact absurd h (by decide)
  · exact h

/-! ## Sequential placeholder replacement over the segment view of a
template (render_template) -/

theorem braceFree_spec (s : String) (h : braceFreeStr s = true) :
    ∀ c ∈ s.data, c ≠ lbrace ∧ c ≠ rbrace := by
  intro c hc
  have := List.all_eq_true.mp h c hc
  simpa using this

theorem phPat_not_prefix (u : List Char) :
    ∀ nd md : List Char, (∀ c ∈ nd, c ≠ rbrace) → (∀ c ∈ md, c ≠ rbrace) →
      nd ≠ md → ((nd ++ [rbrace]).isPrefixOf (md ++ [rbrace] ++ u)) = false := by
  intro nd
  induction nd with
  | nil =>
    intro md hn hm hne
    cases md with
    | nil => exact absurd rfl hne
    | cons c md' =>
      simp only [List.nil_append, List.cons_append, List.isPrefixOf]
      have hc : (rbrace == c) = false :=
        beq_eq_false_iff_ne.mpr (Ne.symm (hm c (List.mem_cons_self _ _)))
      simp [hc]
  | cons a nd' ih =>
    intro md hn hm hne
    cases md with
    | nil =>
      simp only [List.cons_append, List.nil_append, List.isPrefixOf]
      have ha : (a == rbrace) = false :=
        beq_eq_false_iff_ne.mpr (hn a (List.mem_cons_self _ _))
      simp [ha]
    | cons c md' =>
      simp only [List.cons_append, List.isPrefixOf]
      by_cases hac : a = c
      · subst hac
        have hrec := ih md' (fun x hx => hn x (List.mem_cons_of_mem _ hx))
          (fun x hx => hm x (List.mem_cons_of_mem _ hx))
          (fun h => hne (by rw [h]))
        have hrec' : (nd' ++ [rbrace]).isPrefixOf (md' ++ rbrace :: u) = false := by
          simpa [List.append_assoc] using hrec
        simp [hrec']
      · have : (a == c) = false := beq_eq_false_iff_ne.mpr hac
        simp [this]

theorem wfSeg_subst (n v : String) (hv : braceFreeStr v = true) (sg : Seg)
    (h : wfSeg sg = true) : wfSeg (substSegFun n v sg) = true := by
  cases sg with
  | lit s => exact h
  | ph m =>
    simp only [substSegFun]
    by_cases hm : m = n
    · rw [if_pos hm]
      exact hv
    · rw [if_neg hm]
      exact h

theorem replaceAllGo_flattenSegs (n v : String) (hn : braceFreeStr n = true) :
    ∀ segs, (∀ sg ∈ segs, wfSeg sg = true) →
      replaceAllGo lbrace (n.data ++ [rbrace]) v.data 0 (flattenSegs segs).data
        = (flattenSegs (segs.map (substSegFun n v))).data := by
  intro segs
  induction segs with
  | nil => intro _; rfl
  | cons sg rest ih =>
    intro hwf
    have hrest : ∀ x ∈ rest, wfSeg x = true := fun x hx => hwf x (List.mem_cons_of_mem _ hx)
    cases sg with
    | lit s =>
      have hs : braceFreeStr s = true := hwf (Seg.lit s) (List.mem_cons_self _ _)
      simp only [List.map_cons, substSegFun]
      show replaceAllGo lbrace (n.data ++ [rbrace]) v.data 0
          (s.data ++ (flattenSegs rest).data)
        = s.data ++ (flattenSegs (rest.map (substSegFun n v))).data
      rw [replaceAllGo_copy_of_head_ne lbrace (n.data ++ [rbrace]) v.data s.data _
        (fun c hc => (braceFree_spec s hs c hc).1)]
      rw [ih hrest]
    | ph m =>
      by_cases hm : m = n
      · subst hm
        simp only [List.map_cons, substSegFun, if_pos rfl]
        show replaceAllGo lbrace (m.data ++ [rbrace]) v.data 0
            ((lbrace :: (m.data ++ [rbrace])) ++ (flattenSegs rest).data)
          = v.data ++ (flattenSegs (rest.map (substSegFun m v))).data
        rw [replaceAllGo_match lbrace (m.data ++ [rbrace]) v.data ((flattenSegs rest).data)]
        rw [ih hrest]
      · have hmwf : braceFreeStr m = true := hwf (Seg.ph m) (List.mem_cons_self _ _)
        have hmn : n.data ≠ m.data := by
          intro hd
          apply hm
          cases m with
          | mk md =>
            cases n with
            | mk ndd =>
              simp only at hd
              rw [hd]
        simp only [List.map_cons, substSegFun, if_neg hm]
        show replaceAllGo lbrace (n.data ++ [rbrace]) v.data 0
            (lbrace :: ((m.data ++ [rbrace]) ++ (flattenSegs rest).data))
          = lbrace :: ((m.data ++ [rbrace]) ++ (flattenSegs (rest.map (substSegFun n v))).data)
        have hpre : (lbrace :: (n.data ++ [rbrace])).isPrefixOf
            (lbrace :: ((m.data ++ [rbrace]) ++ (flattenSegs rest).data)) = false := by
          have hmain := phPat_not_prefix ((flattenSegs rest).data) n.data m.data
            (fun c hc => (braceFree_spec n hn c hc).2)
            (fun c hc => (braceFree_spec m hmwf c hc).2)
            hmn
          have hmain' : (n.data ++ [rbrace]).isPrefixOf
              (m.data ++ rbrace :: (flattenSegs rest).data) = false := by
            simpa [List.append_assoc] using hmain
          simp [List.isPrefixOf, hmain']
        simp only [replaceAllGo, hpre, Bool.false_eq_true, if_false]
        rw [replaceAllGo_copy_of_head_ne lbrace (n.data ++ [rbrace]) v.data
          (m.data ++ [rbrace]) _
          (by
            intro c hc
            rcases List.mem_append.mp hc with h | h
            · exact (braceFree_spec m hmwf c h).1
            · rw [List.mem_singleton.mp h]
              decide)]
        rw [ih hrest]

theorem replaceAll_flattenSegs (n v : String) (hn : braceFreeStr n = true)
    (segs : List Seg) (hwf : ∀ sg ∈ segs, wfSeg sg = true) :
    replaceAll (flattenSegs segs).data (bracePh n).data v.data
      = (flattenSegs (segs.map (substSegFun n v))).data := by
  show replaceAllGo lbrace (n.data ++ [rbrace]) v.data 0 (flattenSegs segs).data = _
  exact replaceAllGo_flattenSegs n v hn segs hwf

theorem foldl_pyReplace_flattenSegs :
    ∀ (vars : List (String × String)) (segs : List Seg),
      (∀ sg ∈ segs, wfSeg sg = true) →
      (∀ pr ∈ vars, braceFreeStr pr.1 = true ∧ braceFreeStr pr.2 = true) →
      vars.foldl (fun c pr => pyReplace c (bracePh pr.1) pr.2) (flattenSegs segs)
        = flattenSegs (vars.foldl (fun sgs pr => sgs.map (substSegFun pr.1 pr.2)) segs) := by
  intro vars
  induction vars with
  | nil => intro segs _ _; rfl
  | cons pr vars' ih =>
    intro segs hwf hvars
    have hpr := hvars pr (List.mem_cons_self _ _)
    simp only [List.foldl_cons]
    have hstep : pyReplace (flattenSegs segs) (bracePh pr.1) pr.2
        = flattenSegs (segs.map (substSegFun pr.1 pr.2)) := by
      show (⟨replaceAll (flattenSegs segs).data (bracePh pr.1).data pr.2.data⟩ : String) = _
      rw [replaceAll_flattenSegs pr.1 pr.2 hpr.1 segs hwf]
    rw [hstep]
    exact ih (segs.map (substSegFun pr.1 pr.2))
      (by
        intro sg hsg
        rw [List.mem_map] at hsg
        obtain ⟨x, hx, rfl⟩ := hsg
        exact wfSeg_subst pr.1 pr.2 hpr.2 x (hwf x hx))
      (fun q hq => hvars q (List.mem_cons_of_mem _ hq))

theorem foldl_subst_lit (s : String) :
    ∀ vars : List (String × String),
      vars.foldl (fun sg pr => substSegFun pr.1 pr.2 sg) (Seg.lit s) = Seg.lit s := by
  intro vars
  induction vars with
  | nil => rfl
  | cons pr vars' ih =>
    simp only [List.foldl_cons, substSegFun]
    exact ih

theorem foldl_subst_ph (nm : String) :
    ∀ vars : List (String × String),
      vars.foldl (fun sg pr => substSegFun pr.1 pr.2 sg) (Seg.ph nm)
        = (match lookupVar nm vars with
           | some v => Seg.lit v
           | none => Seg.ph nm) := by
  intro vars
  induction vars with
  | nil => rfl
  | cons pr vars' ih =>
    obtain ⟨k, v⟩ := pr
    simp only [List.foldl_cons]
    by_cases hk : k = nm
    · subst hk
      rw [show substSegFun (k, v).1 (k, v).2 (Seg.ph k) = Seg.lit v by
        simp [substSegFun]]
      rw [foldl_subst_lit]
      rw [show lookupVar k ((k, v) :: vars') = some v by simp [lookupVar]]
    · rw [show substSegFun (k, v).1 (k, v).2 (Seg.ph nm) = Seg.ph nm by
        simp [substSegFun, Ne.symm hk]]
      rw [ih]
      rw [show lookupVar nm ((k, v) :: vars') = lookupVar nm vars' by
        simp [lookupVar, hk]]

theorem foldl_map_subst :
    ∀ (vars : List (String × String)) (segs : List Seg),
      vars.foldl (fun sgs pr => sgs.map (substSegFun pr.1 pr.2)) segs
        = segs.map (fun sg => vars.foldl (fun s pr => substSegFun pr.1 pr.2 s) sg) := by
  intro vars
  induction vars with
  | nil => intro segs; simp
  | cons pr vars' ih =>
    intro segs
    simp only [List.foldl_cons]
    rw [ih (segs.map (substSegFun pr.1 pr.2))]
    rw [List.map_map]
    rfl

theorem flattenSegs_foldl_spec (vars : List (String × String)) :
    ∀ segs : List Seg,
      flattenSegs (segs.map
        (fun sg => vars.foldl (fun s pr => substSegFun pr.1 pr.2 s) sg))
        = specRender vars segs := by
  intro segs
  induction segs with
  | nil => rfl
  | cons sg rest ih =>
    cases sg with
    | lit s =>
      simp only [List.map_cons]
      rw [foldl_subst_lit]
      show s ++ flattenSegs (rest.map
          (fun sg => vars.foldl (fun t pr => substSegFun pr.1 pr.2 t) sg))
        = s ++ specRender vars rest
      rw [ih]
    | ph nm =>
      simp only [List.map_cons]
      rw [foldl_subst_ph]
      cases hl : lookupVar nm vars with
      | some v =>
        show v ++ flattenSegs (rest.map
            (fun sg => vars.foldl (fun t pr => substSegFun pr.1 pr.2 t) sg))
          = specRender vars (Seg.ph nm :: rest)
        rw [ih]
        simp [specRender, hl]
      | none =>
        show bracePh nm ++ flattenSegs (rest.map
            (fun sg => vars.foldl (fun t pr => substSegFun pr.1 pr.2 t) sg))
          = specRender vars (Seg.ph nm :: rest)
        rw [ih]
        simp [specRender, hl]

theorem render_iterate_usage (id now : String) (vars : List (String × String)) :
    ∀ (n : Nat) (store : Store) (t : Template),
      TemplateTools.load_template store id = some t →
      ∃ t', TemplateTools.load_template
          ((fun s => (TemplateTools.render_template s id vars now).2)^[n] store) id
            = some t' ∧
        t'.usage_count = t.usage_count + n := by
  intro n
  induction n with
  | zero =>
    intro store t ht
    exact ⟨t, by simpa using ht, rfl⟩
  | succ n ih =>
    intro store t ht
    have hstep : (TemplateTools.render_template store id vars now).2
        = TemplateTools.save_template store id
            { t with usage_count := t.usage_count + 1 } now := by
      unfold TemplateTools.render_template TemplateTools.increment_usage_count
      rw [ht]
    have ht1 : TemplateTools.load_template
        ((fun s => (TemplateTools.render_template s id vars now).2) store) id
        = some { { t with usage_count := t.usage_count + 1 } with
            id := id, updated_at := now } := by
      show TemplateTools.load_template (TemplateTools.render_template store id vars now).2 id = _
      rw [hstep]
      exact storeGet_storeSet_self store id _
    rw [Function.iterate_succ_apply]
    obtain ⟨t', ht', hu⟩ := ih _ _ ht1
    refine ⟨t', ht', ?_⟩
    rw [hu]
    simp only []
    omega

/-- C6: for a stored template whose content is a well-formed segment
sequence (brace-free literals and placeholder names) and variable bindings
whose names and values are brace-free, render_template's sequential
str.replace pass computes exactly the simultaneous substitution of the
spec: every bound placeholder becomes its value, every unbound placeholder
stays verbatim; and n renders increase the stored usage_count by exactly n. -/
theorem render_template_spec (store : Store) (id : String) (t : Template)
    (segs : List Seg) (vars : List (String × String)) (now : String) (n : Nat)
    (ht : TemplateTools.load_template store id = some t)
    (hsegs : t.content = flattenSegs segs)
    (hwf : ∀ sg ∈ segs, wfSeg sg = true)
    (hvars : ∀ pr ∈ vars, braceFreeStr pr.1 = true ∧ braceFreeStr pr.2 = true) :
    (TemplateTools.render_template store id vars now).1 = specRender vars segs ∧
    ∃ t', TemplateTools.load_template
        ((fun s => (TemplateTools.render_template s id vars now).2)^[n] store) id
          = some t' ∧
      t'.usage_count = t.usage_count + n := by
  constructor
  · unfold TemplateTools.render_template
    rw [ht]
    show vars.foldl (fun c pr => pyReplace c (bracePh pr.1) pr.2) t.content
      = specRender vars segs
    rw [hsegs]
    rw [foldl_pyReplace_flattenSegs vars segs hwf hvars]
    rw [foldl_map_subst]
    rw [flattenSegs_foldl_spec]
  · exact render_iterate_usage id now vars n store t ht

/-- C6 counterexample: with template content made of the single placeholder
of a and the ordered bindings a to the value of b followed by b to X, the
sequential replacement loop rewrites the substituted value again and
returns X, while substituting every bound placeholder by its own value
(the claim) yields the value of a verbatim. -/
theorem render_template_not_simultaneous :
    (TemplateTools.render_template [("t", { tmplFixture with content := "{a}" })] "t"
        [("a", "{b}"), ("b", "X")] "now").1 = "X" ∧
    flattenSegs [Seg.ph "a"] = "{a}" ∧
    specRender [("a", "{b}"), ("b", "X")] [Seg.ph "a"] = "{b}" ∧
    (TemplateTools.render_template [("t", { tmplFixture with content := "{a}" })] "t"
        [("a", "{b}"), ("b", "X")] "now").1
      ≠ specRender [("a", "{b}"), ("b", "X")] [Seg.ph "a"] := by
  decide

/-- Witness for C6 at the fixture: rendering the default template with the
brace-free binding of title gives exactly the simultaneous substitution
(title substituted, introduction and main_content verbatim), and two
renders raise usage_count from 0 to 2. -/
theorem render_template_spec_witness :
    ((TemplateTools.render_template storeFixture "default"
        [("title", "My Post")] "now").1
      = specRender [("title", "My Post")] segFixture) ∧
    specRender [("title", "My Post")] segFixture
      = "# My Post\n\n## Introduction\n\n{introduction}\n\n## Main Content\n\n{main_content}" ∧
    (∃ t', TemplateTools.load_template
        ((fun s => (TemplateTools.render_template s "default"
            [("title", "My Post")] "now").2)^[2] storeFixture) "default"
          = some t' ∧
      t'.usage_count = tmplFixture.usage_count + 2) := by
  have h := render_template_spec storeFixture "default" tmplFixture segFixture
    [("title", "My Post")] "now" 2 (by decide) (by decide) (by decide) (by decide)
  exact ⟨h.1, by decide, h.2⟩
